import Mathlib

/-!
Verification of the natural-language specification of `p5/core/primitives3d.py`
(procedural 3D mesh generation: box, plane, sphere, ellipsoid, truncated cone,
cylinder, cone, torus) against a shallow embedding of the source.

Positions are embedded over `ℝ` (Python floats doing real arithmetic with
`math.cos`, `math.sin`, `math.atan2`, `math.pi`); all index bookkeeping
(faces, edges, subdivision counts) is embedded over `ℕ` so topological
facts stay computable.  The generic mesh container `Geometry` and the
matrix utility are external to the given sources; their operations are
modelled from the spec and marked as such.
-/

namespace P5

/-- A 3D point or vector (a Python `[x, y, z]` list of floats). -/
abbrev Vec3 : Type := ℝ × ℝ × ℝ

/-- Shallow embedding of the external `Geometry` mesh container: ordered
vertices, optional parallel vertex normals, a flat list of UV coordinates
(two entries per vertex), triangular face index triples, wireframe edge
index pairs, explicit stroke indices, the stored subdivision counts it was
constructed with, and an attached (diagonal-scale) transform. -/
structure Geometry where
  detail_x : ℕ
  detail_y : ℕ
  vertices : List Vec3 := []
  vertex_normals : List Vec3 := []
  uvs : List ℝ := []
  faces : List (ℕ × ℕ × ℕ) := []
  edges : List (ℕ × ℕ) := []
  stroke_indices : List (ℕ × ℕ) := []
  matrix : Option Vec3 := none

/-- Normalize an (undirected) edge so the smaller endpoint comes first. -/
def eNorm (p : ℕ × ℕ) : ℕ × ℕ := if p.1 ≤ p.2 then p else (p.2, p.1)

/-- The three normalized edges of a triangular face. -/
def edgesOfFace (f : ℕ × ℕ × ℕ) : List (ℕ × ℕ) :=
  [eNorm (f.1, f.2.1), eNorm (f.2.1, f.2.2), eNorm (f.2.2, f.1)]

/-- The deduplicated set of undirected edges of a face list. -/
def edgeFinset (faces : List (ℕ × ℕ × ℕ)) : Finset (ℕ × ℕ) :=
  (faces.flatMap edgesOfFace).toFinset

/-- Componentwise difference of 3D vectors. -/
def sub3 (a b : Vec3) : Vec3 := (a.1 - b.1, a.2.1 - b.2.1, a.2.2 - b.2.2)

/-- Componentwise sum of 3D vectors. -/
def add3 (a b : Vec3) : Vec3 := (a.1 + b.1, a.2.1 + b.2.1, a.2.2 + b.2.2)

/-- Cross product of 3D vectors. -/
def cross3 (a b : Vec3) : Vec3 :=
  (a.2.1 * b.2.2 - a.2.2 * b.2.1, a.2.2 * b.1 - a.1 * b.2.2, a.1 * b.2.1 - a.2.1 * b.1)

/-- Modelled from the spec: the external transform utility
`matrix.scale_transform(sx, sy, sz)` builds a diagonal scale transform from
three axis extents; it is represented here by its diagonal. -/
def scale_transform (x y z : ℝ) : Vec3 := (x, y, z)

namespace Geometry

/-- Face normal used by the modelled normal-derivation helper: cross product
of two triangle edge vectors. -/
noncomputable def faceNormal (g : Geometry) (f : ℕ × ℕ × ℕ) : Vec3 :=
  cross3 (sub3 (g.vertices.getD f.2.1 (0, 0, 0)) (g.vertices.getD f.1 (0, 0, 0)))
    (sub3 (g.vertices.getD f.2.2 (0, 0, 0)) (g.vertices.getD f.1 (0, 0, 0)))

/-- Modelled from the spec: the external `Geometry.compute_normals` helper
derives `vertex_normals` from `faces` when not already populated, producing
one (averaged face-normal) normal per vertex.  The `Geometry` class itself
is outside the given sources. -/
noncomputable def compute_normals (g : Geometry) : Geometry :=
  match g.vertex_normals with
  | _ :: _ => g
  | [] =>
    { g with vertex_normals :=
        (List.range g.vertices.length).map (fun k =>
          ((g.faces.filter (fun f => f.1 == k || f.2.1 == k || f.2.2 == k)).map
            g.faceNormal).foldr add3 (0, 0, 0)) }

/-- Modelled from the spec: the external `Geometry.compute_faces` helper
builds two triangles per cell of the row-major `(detail_y+1) × (detail_x+1)`
vertex grid already present in `vertices`. -/
def compute_faces (g : Geometry) : Geometry :=
  { g with faces :=
      (List.range g.detail_y).flatMap (fun i =>
        (List.range g.detail_x).flatMap (fun j =>
          [(i * (g.detail_x + 1) + j, i * (g.detail_x + 1) + j + 1,
              (i + 1) * (g.detail_x + 1) + j + 1),
           (i * (g.detail_x + 1) + j, (i + 1) * (g.detail_x + 1) + j + 1,
              (i + 1) * (g.detail_x + 1) + j)])) }

/-- Modelled from the spec: the external `Geometry.make_triangle_edges`
helper derives the per-triangle edge list from `faces`. -/
def make_triangle_edges (g : Geometry) : Geometry :=
  { g with edges := g.faces.flatMap (fun f => [(f.1, f.2.1), (f.2.1, f.2.2), (f.2.2, f.1)]) }

/-- Modelled from the spec: the external `Geometry.edges_to_vertices` helper
deduplicates `edges` into the final drawable edge list. -/
def edges_to_vertices (g : Geometry) : Geometry :=
  { g with edges := (g.edges.map eNorm).dedup }

end Geometry

/-! Generic lemmas about row-major flattened parametric grids: every factory
appends its vertices as `outer.flatMap (fun a => (List.range c).map (g a))`,
an `outer.length × c` grid in row-major order. -/

theorem length_flatRows {α β : Type} (l : List α) (c : ℕ) (g : α → ℕ → β) :
    (l.flatMap (fun a => (List.range c).map (g a))).length = l.length * c := by
  induction l with
  | nil => simp
  | cons a t ih => simp only [List.flatMap_cons, List.length_append, List.length_map,
      List.length_range, List.length_cons, ih]; ring

theorem getD_flatRows {α β : Type} (l : List α) (c : ℕ) (g : α → ℕ → β)
    (d : β) (a₀ : α) (k i : ℕ) (hk : k < l.length) (hi : i < c) :
    (l.flatMap (fun a => (List.range c).map (g a))).getD (k * c + i) d =
      g (l.getD k a₀) i := by
  induction l generalizing k with
  | nil => simp at hk
  | cons a t ih =>
    rw [List.flatMap_cons]
    cases k with
    | zero =>
      rw [Nat.zero_mul, Nat.zero_add]
      rw [List.getD_append _ _ _ _ (by simpa using hi)]
      simp [List.getD_eq_getElem?_getD, List.getElem?_map, List.getElem?_range hi]
    | succ k =>
      have hlen : ((List.range c).map (g a)).length = c := by simp
      have harith : (k + 1) * c + i = ((List.range c).map (g a)).length + (k * c + i) := by
        rw [hlen]; ring
      rw [harith, List.getD_append_right _ _ _ _ (Nat.le_add_right _ _),
        Nat.add_sub_cancel_left]
      exact ih k (by simpa using hk)

theorem getD_range (n k d : ℕ) (h : k < n) : (List.range n).getD k d = k := by
  simp [List.getD_eq_getElem?_getD, List.getElem?_range h]

/-- The per-face corner-code table of `box` (`cube_indices` in the source). -/
def cube_indices : List (List ℕ) :=
  [[0, 4, 2, 6], [1, 3, 5, 7], [0, 1, 4, 5], [2, 6, 3, 7], [0, 2, 1, 3], [4, 5, 6, 7]]

/-- The octant position decoded from a `box` corner code `d` by bit tests:
`[((d & 1) * 2 - 1) / 2, ((d & 2) - 1) / 2, ((d & 4) / 2 - 1) / 2]`. -/
noncomputable def octant (d : ℕ) : Vec3 :=
  ((((d &&& 1 : ℕ) : ℝ) * 2 - 1) / 2, (((d &&& 2 : ℕ) : ℝ) - 1) / 2,
    (((d &&& 4 : ℕ) : ℝ) / 2 - 1) / 2)

/-- The hard-coded stroke edge set of `box`. -/
def boxStroke : List (ℕ × ℕ) :=
  [(0, 1), (1, 3), (3, 2), (6, 7), (8, 9), (9, 11), (14, 15), (16, 17), (17, 19),
    (18, 19), (20, 21), (22, 23)]

/-- Embedding of `box(width, height, depth, detail_x=1, detail_y=1)`. -/
noncomputable def box (width height depth : ℝ) (detail_x : ℕ := 1) (detail_y : ℕ := 1) :
    Geometry :=
  let geom : Geometry :=
    { detail_x := detail_x, detail_y := detail_y
      stroke_indices := boxStroke
      vertices := (List.range cube_indices.length).flatMap (fun i =>
        (List.range 4).map (fun j => octant ((cube_indices.getD i []).getD j 0)))
      uvs := (List.range cube_indices.length).flatMap (fun _ =>
        (List.range 4).flatMap (fun j =>
          [((j &&& 1 : ℕ) : ℝ), ((j &&& 2 : ℕ) : ℝ) / 2]))
      faces := (List.range cube_indices.length).flatMap (fun i =>
        [(i * 4, i * 4 + 1, i * 4 + 2), (i * 4 + 2, i * 4 + 1, i * 4 + 3)]) }
  let geom := geom.compute_normals
  let geom := geom.make_triangle_edges
  { geom with matrix := some (scale_transform width height depth) }

/-- C6: for every width, height and depth, `box` returns a mesh with exactly
24 vertices, 24 UV pairs (48 flat UV entries), 12 triangular faces, and the
same fixed set of 12 stroke-index edge pairs; none of these depend on the
width, height, or depth (each equals a fixed constant). -/
theorem box_fixed_topology (width height depth : ℝ) (dx dy : ℕ) :
    (box width height depth dx dy).vertices.length = 24 ∧
    (box width height depth dx dy).uvs.length = 2 * 24 ∧
    (box width height depth dx dy).faces.length = 12 ∧
    (box width height depth dx dy).stroke_indices = boxStroke :=
  ⟨rfl, rfl, rfl, rfl⟩

/-- C10: the `detail_x`/`detail_y` parameters of `box` have no effect on the
generated geometry: any two detail choices give identical vertices, UVs,
faces, stroke indices, normals and edges. -/
theorem box_detail_independent (w h d : ℝ) (dx₁ dy₁ dx₂ dy₂ : ℕ) :
    (box w h d dx₁ dy₁).vertices = (box w h d dx₂ dy₂).vertices ∧
    (box w h d dx₁ dy₁).uvs = (box w h d dx₂ dy₂).uvs ∧
    (box w h d dx₁ dy₁).faces = (box w h d dx₂ dy₂).faces ∧
    (box w h d dx₁ dy₁).stroke_indices = (box w h d dx₂ dy₂).stroke_indices ∧
    (box w h d dx₁ dy₁).vertex_normals = (box w h d dx₂ dy₂).vertex_normals ∧
    (box w h d dx₁ dy₁).edges = (box w h d dx₂ dy₂).edges :=
  ⟨rfl, rfl, rfl, rfl, rfl, rfl⟩

/-- Embedding of `plane(width, height, detail_x=1, detail_y=1)`: a regular
grid in the canonical `z = 0` plane, each vertex at `(u - 0.5, v - 0.5, 0)`. -/
noncomputable def plane (width height : ℝ) (detail_x : ℕ := 1) (detail_y : ℕ := 1) :
    Geometry :=
  let geom : Geometry :=
    { detail_x := detail_x, detail_y := detail_y
      vertices := (List.range (detail_y + 1)).flatMap (fun (i : ℕ) =>
        (List.range (detail_x + 1)).map (fun (j : ℕ) =>
          ((j : ℝ) / (detail_x : ℝ) - 0.5, (i : ℝ) / (detail_y : ℝ) - 0.5, 0)))
      uvs := (List.range (detail_y + 1)).flatMap (fun (i : ℕ) =>
        (List.range (detail_x + 1)).flatMap (fun (j : ℕ) =>
          [(j : ℝ) / (detail_x : ℝ), (i : ℝ) / (detail_y : ℝ)])) }
  let geom := geom.compute_faces
  let geom := geom.compute_normals
  let geom := geom.make_triangle_edges
  let geom := geom.edges_to_vertices
  { geom with matrix := some (scale_transform width height 1) }

/-- The canonical unit-sphere sample of `ellipsoid` at grid position `(i, j)`:
`v = i / detail_y`, `phi = pi * v - pi / 2`, `u = j / detail_x`,
`theta = 2 * pi * u`, position `(cos phi * sin theta, sin phi, cos phi * cos theta)`. -/
noncomputable def ellipsoidVertex (detail_x detail_y i j : ℕ) : Vec3 :=
  let v : ℝ := (i : ℝ) / (detail_y : ℝ)
  let phi : ℝ := Real.pi * v - Real.pi / 2
  let u : ℝ := (j : ℝ) / (detail_x : ℝ)
  let theta : ℝ := 2 * Real.pi * u
  (Real.cos phi * Real.sin theta, Real.sin phi, Real.cos phi * Real.cos theta)

/-- Embedding of `ellipsoid(radius_x, radius_y, radius_z, detail_x=24,
detail_y=24)`: the canonical unit-sphere grid; each vertex is appended to
both `vertices` and `vertex_normals`, with UV `(u, v)`. -/
noncomputable def ellipsoid (radius_x radius_y radius_z : ℝ)
    (detail_x : ℕ := 24) (detail_y : ℕ := 24) : Geometry :=
  let geom : Geometry :=
    { detail_x := detail_x, detail_y := detail_y
      vertices := (List.range (detail_y + 1)).flatMap (fun i =>
        (List.range (detail_x + 1)).map (fun j => ellipsoidVertex detail_x detail_y i j))
      vertex_normals := (List.range (detail_y + 1)).flatMap (fun i =>
        (List.range (detail_x + 1)).map (fun j => ellipsoidVertex detail_x detail_y i j))
      uvs := (List.range (detail_y + 1)).flatMap (fun (i : ℕ) =>
        (List.range (detail_x + 1)).flatMap (fun (j : ℕ) =>
          [(j : ℝ) / (detail_x : ℝ), (i : ℝ) / (detail_y : ℝ)])) }
  let geom := geom.compute_faces
  let geom := geom.make_triangle_edges
  let geom := geom.edges_to_vertices
  { geom with matrix := some (scale_transform radius_x radius_y radius_z) }

/-- Embedding of `sphere(radius=50, detail_x=24, detail_y=16)`: delegates to
`ellipsoid` with all three radii equal to `radius`. -/
noncomputable def sphere (radius : ℝ := 50) (detail_x : ℕ := 24) (detail_y : ℕ := 16) :
    Geometry :=
  ellipsoid radius radius radius detail_x detail_y

/-- The torus surface sample at grid position `(i, j)`: `v = i / detail_y`,
`phi = 2 * pi * v`, `r = 1 + tube_ratio * cos phi`, `u = j / detail_x`,
`theta = 2 * pi * u`, position `(r * cos theta, r * sin theta,
tube_ratio * sin phi)`. -/
noncomputable def torusVertex (tube_ratio : ℝ) (detail_x detail_y i j : ℕ) : Vec3 :=
  let v : ℝ := (i : ℝ) / (detail_y : ℝ)
  let phi : ℝ := 2 * Real.pi * v
  let r : ℝ := 1 + tube_ratio * Real.cos phi
  let u : ℝ := (j : ℝ) / (detail_x : ℝ)
  let theta : ℝ := 2 * Real.pi * u
  (r * Real.cos theta, r * Real.sin theta, tube_ratio * Real.sin phi)

/-- The single normal the source computes per torus row `i`: it reuses the
angle variables left over from the last inner-loop iteration `j = detail_x`
(so `u = detail_x / detail_x`). -/
noncomputable def torusRowNormal (detail_x detail_y i : ℕ) : Vec3 :=
  let v : ℝ := (i : ℝ) / (detail_y : ℝ)
  let phi : ℝ := 2 * Real.pi * v
  let u : ℝ := (detail_x : ℝ) / (detail_x : ℝ)
  let theta : ℝ := 2 * Real.pi * u
  (Real.cos phi * Real.cos theta, Real.cos phi * Real.sin theta, Real.sin phi)

/-- Embedding of `torus(radius=50, tube_radius=10, detail_x=24, detail_y=16)`.
The normal and the UV pair are appended once per outer row (the source
appends them outside the inner loop), with the inner-loop variables at their
final value `j = detail_x`. -/
noncomputable def torus (radius : ℝ := 50) (tube_radius : ℝ := 10)
    (detail_x : ℕ := 24) (detail_y : ℕ := 16) : Geometry :=
  let tube_ratio : ℝ := tube_radius / radius
  let geom : Geometry :=
    { detail_x := detail_x, detail_y := detail_y
      vertices := (List.range (detail_y + 1)).flatMap (fun i =>
        (List.range (detail_x + 1)).map (fun j =>
          torusVertex tube_ratio detail_x detail_y i j))
      vertex_normals := (List.range (detail_y + 1)).map (fun i =>
        torusRowNormal detail_x detail_y i)
      uvs := (List.range (detail_y + 1)).flatMap (fun (i : ℕ) =>
        [(detail_x : ℝ) / (detail_x : ℝ), (i : ℝ) / (detail_y : ℝ)]) }
  let geom := geom.compute_faces
  let geom := geom.make_triangle_edges
  let geom := geom.edges_to_vertices
  { geom with matrix := some (scale_transform radius radius radius) }

/-- Embedding of Python's `math.atan2(y, x)`: for the positive `x` always
used by the source (the sanitized height), `atan2(y, x) = arctan (y / x)`. -/
noncomputable def atan2 (y x : ℝ) : ℝ := Real.arctan (y / x)

/-- The ring levels `yy` iterated by `truncated_cone` (with the sanitized
`detail_y`): `range(start, end + 1)` where `start = -2` if `bottom_cap` else
`0`, and `end = detail_y + 2` if `top_cap` else `detail_y`. -/
def truncLevels (detail_y : ℕ) (bottom_cap top_cap : Bool) : List ℤ :=
  let start : ℤ := if bottom_cap then -2 else 0
  let stop : ℤ := (detail_y : ℤ) + (if top_cap then 2 else 0)
  (List.range (stop - start + 1).toNat).map (fun (k : ℕ) => start + (k : ℤ))

/-- Ring data `(y - height / 2, v, ring_radius)` of `truncated_cone` at level
`yy`, after the source's bottom-cap / top-cap override chain and the apex
radius-zero override (all parameters already sanitized). -/
noncomputable def truncRing (bottom_radius top_radius height : ℝ) (detail_y : ℕ)
    (yy : ℤ) : ℝ × ℝ × ℝ :=
  let v : ℝ := (yy : ℝ) / (detail_y : ℝ)
  let y : ℝ := height * v
  let ring_radius : ℝ := bottom_radius + (top_radius - bottom_radius) * v
  let (y, v, ring_radius) :=
    if yy < 0 then ((0 : ℝ), (0 : ℝ), bottom_radius)
    else if yy > (detail_y : ℤ) then (height, (1 : ℝ), top_radius)
    else (y, v, ring_radius)
  let ring_radius := if yy = -2 ∨ yy = (detail_y : ℤ) + 2 then (0 : ℝ) else ring_radius
  (y - height / 2, v, ring_radius)

/-- The vertex of `truncated_cone` at ring level `yy`, angle index `ii`:
`(sin ur * ring_radius, y, cos ur * ring_radius)` with `ur = 2 pi ii / detail_x`. -/
noncomputable def truncVertex (bottom_radius top_radius height : ℝ)
    (detail_x detail_y : ℕ) (yy : ℤ) (ii : ℕ) : Vec3 :=
  let r := truncRing bottom_radius top_radius height detail_y yy
  let u : ℝ := (ii : ℝ) / (detail_x : ℝ)
  let ur : ℝ := 2 * Real.pi * u
  (Real.sin ur * r.2.2, r.1, Real.cos ur * r.2.2)

/-- The vertex normal of `truncated_cone` at ring level `yy`, angle index
`ii`: `(0, -1, 0)` on bottom-cap rings, `(0, 1, 0)` on top-cap rings when the
(sanitized) top radius is nonzero, and the constant slant normal otherwise. -/
noncomputable def truncNormal (bottom_radius top_radius height : ℝ)
    (detail_x detail_y : ℕ) (yy : ℤ) (ii : ℕ) : Vec3 :=
  let slant : ℝ := atan2 (bottom_radius - top_radius) height
  let u : ℝ := (ii : ℝ) / (detail_x : ℝ)
  let ur : ℝ := 2 * Real.pi * u
  if yy < 0 then (0, -1, 0)
  else if yy > (detail_y : ℤ) ∧ top_radius ≠ 0 then (0, 1, 0)
  else (Real.sin ur * Real.cos slant, Real.sin slant, Real.cos ur * Real.cos slant)

/-- The bottom-cap fan of `truncated_cone`: for each `jj`, the triangle
`[jj, detail_x + (jj+1) % detail_x, detail_x + jj]` connecting the degenerate
apex ring (ring 0) to the rim ring (ring 1). -/
def bottomFaces (detail_x : ℕ) : List (ℕ × ℕ × ℕ) :=
  (List.range detail_x).map (fun jj =>
    (jj, detail_x + (jj + 1) % detail_x, detail_x + jj))

/-- The body faces of `truncated_cone`: `detail_y` segments starting at
`start_index = s0`, each contributing two triangles per quad and advancing
the segment base by `detail_x`. -/
def bodyFaces (s0 detail_x detail_y : ℕ) : List (ℕ × ℕ × ℕ) :=
  (List.range detail_y).flatMap (fun k =>
    (List.range detail_x).flatMap (fun ii =>
      [(s0 + k * detail_x + ii,
          s0 + k * detail_x + (ii + 1) % detail_x,
          s0 + k * detail_x + detail_x + (ii + 1) % detail_x),
        (s0 + k * detail_x + ii,
          s0 + k * detail_x + detail_x + (ii + 1) % detail_x,
          s0 + k * detail_x + detail_x + ii)]))

/-- The top-cap fan of `truncated_cone`: triangles
`[s1 + ii, s1 + (ii+1) % detail_x, s1 + detail_x]` onto the single apex index
`s1 + detail_x` (the first vertex of the top apex ring). -/
def topFaces (s1 detail_x : ℕ) : List (ℕ × ℕ × ℕ) :=
  (List.range detail_x).map (fun ii =>
    (s1 + ii, s1 + (ii + 1) % detail_x, s1 + detail_x))

/-- The face list of `truncated_cone` (with sanitized `detail_x`, `detail_y`):
an optional bottom-cap fan against the rim ring, `detail_y` stitched body
segments of two triangles per quad, and an optional top-cap fan onto the
first vertex of the top apex ring, tracking the source's running
`start_index` (`s0` after the bottom cap, `s0 + detail_y * detail_x +
detail_x` for the top cap). -/
def truncFaces (detail_x detail_y : ℕ) (bottom_cap top_cap : Bool) :
    List (ℕ × ℕ × ℕ) :=
  let s0 : ℕ := if bottom_cap then 2 * detail_x else 0
  (if bottom_cap then bottomFaces detail_x else []) ++
  bodyFaces s0 detail_x detail_y ++
  (if top_cap then topFaces (s0 + detail_y * detail_x + detail_x) detail_x else [])

theorem truncFaces_true_false (n m : ℕ) :
    truncFaces n m true false = bottomFaces n ++ bodyFaces (2 * n) n m := by
  show (bottomFaces n ++ bodyFaces (2 * n) n m) ++ [] = _
  rw [List.append_nil]

theorem truncFaces_true_true (n m : ℕ) :
    truncFaces n m true true =
      (bottomFaces n ++ bodyFaces (2 * n) n m) ++
        topFaces (2 * n + m * n + n) n := rfl

/-- Embedding of `truncated_cone(bottom_radius, top_radius, height, detail_x,
detail_y, bottom_cap, top_cap)`: the container is constructed first (storing
the raw subdivision counts), the parameters are then sanitized, and the ring
stack, normals, UVs and stitched faces are emitted. -/
noncomputable def truncated_cone (bottom_radius top_radius height : ℝ)
    (detail_x detail_y : ℕ) (bottom_cap top_cap : Bool) : Geometry :=
  let geom : Geometry := { detail_x := detail_x, detail_y := detail_y }
  let bottom_radius := if bottom_radius ≤ 0 then 1 else bottom_radius
  let top_radius := max top_radius 0
  let height := if height ≤ 0 then bottom_radius else height
  let detail_x := max detail_x 3
  let detail_y := max detail_y 1
  { geom with
    vertices := (truncLevels detail_y bottom_cap top_cap).flatMap (fun yy =>
      (List.range detail_x).map (fun ii =>
        truncVertex bottom_radius top_radius height detail_x detail_y yy ii))
    vertex_normals := (truncLevels detail_y bottom_cap top_cap).flatMap (fun yy =>
      (List.range detail_x).map (fun ii =>
        truncNormal bottom_radius top_radius height detail_x detail_y yy ii))
    uvs := (truncLevels detail_y bottom_cap top_cap).flatMap (fun yy =>
      (List.range detail_x).flatMap (fun (ii : ℕ) =>
        [(ii : ℝ) / (detail_x : ℝ),
          (truncRing bottom_radius top_radius height detail_y yy).2.1]))
    faces := truncFaces detail_x detail_y bottom_cap top_cap }

/-- Embedding of `cylinder(radius=50, height=50, detail_x=24, detail_y=1,
top_cap=True, bottom_cap=True)`: the unit truncated cone `(1, 1, 1)` with a
`(radius, height, radius)` scale transform and derived/deduplicated edges. -/
noncomputable def cylinder (radius : ℝ := 50) (height : ℝ := 50)
    (detail_x : ℕ := 24) (detail_y : ℕ := 1)
    (top_cap : Bool := true) (bottom_cap : Bool := true) : Geometry :=
  let geom := truncated_cone 1 1 1 detail_x detail_y bottom_cap top_cap
  let geom := { geom with matrix := some (scale_transform radius height radius) }
  let geom := geom.make_triangle_edges
  geom.edges_to_vertices

/-- Embedding of `cone(radius=50, height=50, detail_x=24, detail_y=1,
cap=True)`: the unit truncated cone `(1, 0, 1)` with bottom cap `cap` and no
top cap, derived/deduplicated edges, and a `(radius, height, radius)` scale
transform. -/
noncomputable def cone (radius : ℝ := 50) (height : ℝ := 50)
    (detail_x : ℕ := 24) (detail_y : ℕ := 1) (cap : Bool := true) : Geometry :=
  let geom := truncated_cone 1 0 1 detail_x detail_y cap false
  let geom := geom.make_triangle_edges
  let geom := geom.edges_to_vertices
  { geom with matrix := some (scale_transform radius height radius) }

/-- Embedding of `line3d`: a two-vertex, one-edge mesh. -/
noncomputable def line3d (x1 : ℝ := 0) (y1 : ℝ := 0) (z1 : ℝ := 0)
    (x2 : ℝ := 1) (y2 : ℝ := 0) (z2 : ℝ := 0) : Geometry :=
  { detail_x := 1, detail_y := 1
    vertices := [(x1, y1, z1), (x2, y2, z2)]
    edges := [(0, 1)] }

theorem getD_range_map_int (n k : ℕ) (s : ℤ) (h : k < n) :
    ((List.range n).map (fun (j : ℕ) => s + (j : ℤ))).getD k 0 = s + (k : ℤ) := by
  simp [List.getD_eq_getElem?_getD, List.getElem?_map, List.getElem?_range h]

theorem truncLevels_length (dy : ℕ) (bc tc : Bool) :
    (truncLevels dy bc tc).length =
      dy + 1 + (if bc then 2 else 0) + (if tc then 2 else 0) := by
  cases bc <;> cases tc <;> simp [truncLevels] <;> omega

theorem truncLevels_getD (dy : ℕ) (bc tc : Bool) (k : ℕ)
    (hk : k < (truncLevels dy bc tc).length) :
    (truncLevels dy bc tc).getD k 0 = (if bc then -2 else 0) + (k : ℤ) := by
  have hk' : k <
      ((((dy : ℤ) + (if tc then 2 else 0)) - (if bc then (-2 : ℤ) else 0) + 1).toNat) := by
    simpa only [truncLevels, List.length_map, List.length_range] using hk
  exact getD_range_map_int _ _ _ hk'

theorem trunc_vertices_length (b t h : ℝ) (dx dy : ℕ) (bc tc : Bool) :
    (truncated_cone b t h dx dy bc tc).vertices.length =
      (max dx 3) *
        ((max dy 1) + 1 + (if bc then 2 else 0) + (if tc then 2 else 0)) := by
  show ((truncLevels (max dy 1) bc tc).flatMap _).length = _
  rw [length_flatRows, truncLevels_length, Nat.mul_comm]

theorem trunc_normals_length (b t h : ℝ) (dx dy : ℕ) (bc tc : Bool) :
    (truncated_cone b t h dx dy bc tc).vertex_normals.length =
      (truncated_cone b t h dx dy bc tc).vertices.length := by
  show ((truncLevels (max dy 1) bc tc).flatMap _).length =
    ((truncLevels (max dy 1) bc tc).flatMap _).length
  rw [length_flatRows, length_flatRows]

theorem length_flatPairs {α β : Type} (l : List α) (f g : α → β) :
    (l.flatMap (fun a => [f a, g a])).length = 2 * l.length := by
  induction l with
  | nil => simp
  | cons a t ih => simp only [List.flatMap_cons, List.length_append,
      List.length_cons, List.length_nil, ih]; ring

theorem length_flatRowPairs {α β : Type} (l : List α) (c : ℕ)
    (f g : α → ℕ → β) :
    (l.flatMap (fun a => (List.range c).flatMap (fun i => [f a i, g a i]))).length =
      l.length * (2 * c) := by
  induction l with
  | nil => simp
  | cons a t ih =>
    simp only [List.flatMap_cons, List.length_append, List.length_cons, ih,
      length_flatPairs, List.length_range]
    ring

theorem trunc_uvs_length (b t h : ℝ) (dx dy : ℕ) (bc tc : Bool) :
    (truncated_cone b t h dx dy bc tc).uvs.length =
      2 * (truncated_cone b t h dx dy bc tc).vertices.length := by
  show ((truncLevels (max dy 1) bc tc).flatMap _).length =
    2 * ((truncLevels (max dy 1) bc tc).flatMap _).length
  rw [length_flatRows, length_flatRowPairs]
  ring

/-- C4: `truncated_cone` raises no exception for malformed parameters and
sanitizes deterministically: it produces exactly the geometry of the call on
the sanitized parameters (`bottom_radius ≤ 0` replaced by `1`, `top_radius`
clamped to `≥ 0`, `height ≤ 0` replaced by the sanitized bottom radius,
`detail_x` floored to `3`, `detail_y` floored to `1`), and generation runs to
completion: the mesh holds one ring of `max detail_x 3` vertices per level. -/
theorem truncated_cone_sanitizes (b t h : ℝ) (dx dy : ℕ) (bc tc : Bool) :
    (truncated_cone b t h dx dy bc tc).vertices =
      (truncated_cone (if b ≤ 0 then 1 else b) (max t 0)
        (if h ≤ 0 then (if b ≤ 0 then 1 else b) else h)
        (max dx 3) (max dy 1) bc tc).vertices ∧
    (truncated_cone b t h dx dy bc tc).vertex_normals =
      (truncated_cone (if b ≤ 0 then 1 else b) (max t 0)
        (if h ≤ 0 then (if b ≤ 0 then 1 else b) else h)
        (max dx 3) (max dy 1) bc tc).vertex_normals ∧
    (truncated_cone b t h dx dy bc tc).uvs =
      (truncated_cone (if b ≤ 0 then 1 else b) (max t 0)
        (if h ≤ 0 then (if b ≤ 0 then 1 else b) else h)
        (max dx 3) (max dy 1) bc tc).uvs ∧
    (truncated_cone b t h dx dy bc tc).faces =
      (truncated_cone (if b ≤ 0 then 1 else b) (max t 0)
        (if h ≤ 0 then (if b ≤ 0 then 1 else b) else h)
        (max dx 3) (max dy 1) bc tc).faces ∧
    (truncated_cone b t h dx dy bc tc).vertices.length =
      (max dx 3) *
        ((max dy 1) + 1 + (if bc then 2 else 0) + (if tc then 2 else 0)) := by
  have hb : (0 : ℝ) < if b ≤ 0 then 1 else b := by
    by_cases hb0 : b ≤ 0 <;> simp [hb0] <;> linarith [not_le.mp hb0]
  have e1 : (if (if b ≤ 0 then (1 : ℝ) else b) ≤ 0 then 1 else if b ≤ 0 then 1 else b)
      = if b ≤ 0 then 1 else b := by
    rw [if_neg (not_le.mpr hb)]
  have e2 : max (max t 0) 0 = max t 0 := by
    rw [max_eq_left (le_max_right t 0)]
  have hh : (0 : ℝ) < if h ≤ 0 then (if b ≤ 0 then 1 else b) else h := by
    by_cases hh0 : h ≤ 0 <;> simp [hh0]
    · exact hb
    · linarith [not_le.mp hh0]
  have e3 : (if (if h ≤ 0 then (if b ≤ 0 then (1 : ℝ) else b) else h) ≤ 0 then
        (if b ≤ 0 then (1 : ℝ) else b)
      else if h ≤ 0 then (if b ≤ 0 then 1 else b) else h)
      = if h ≤ 0 then (if b ≤ 0 then 1 else b) else h := by
    rw [if_neg (not_le.mpr hh)]
  have e4 : max (max dx 3) 3 = max dx 3 := by omega
  have e5 : max (max dy 1) 1 = max dy 1 := by omega
  refine ⟨?_, ?_, ?_, ?_, trunc_vertices_length b t h dx dy bc tc⟩ <;>
    (simp only [truncated_cone, e1, e2, e3, e4, e5])

/-- C5: for every `bottom_radius ≤ 0`, `truncated_cone` behaves identically
to `bottom_radius = 1` with the same remaining parameters: the returned
`Geometry` values (vertices, normals, UVs, faces, and all other fields) are
equal. -/
theorem truncated_cone_nonpos_bottom_eq_one (b t h : ℝ) (dx dy : ℕ)
    (bc tc : Bool) (hb : b ≤ 0) :
    truncated_cone b t h dx dy bc tc = truncated_cone 1 t h dx dy bc tc := by
  have e1 : (if b ≤ 0 then (1 : ℝ) else b) = if (1 : ℝ) ≤ 0 then 1 else 1 := by
    rw [if_pos hb]; norm_num
  simp only [truncated_cone, e1]

/-- Witness for `truncated_cone_nonpos_bottom_eq_one` at `bottom_radius = 0`
(with top radius 2, height 5, details 24 and 1, both caps). -/
theorem truncated_cone_nonpos_bottom_eq_one_witness :
    (0 : ℝ) ≤ 0 ∧
      truncated_cone 0 2 5 24 1 true true = truncated_cone 1 2 5 24 1 true true :=
  ⟨le_refl 0, truncated_cone_nonpos_bottom_eq_one 0 2 5 24 1 true true (le_refl 0)⟩

/-- C9: the returned mesh's stored `detail_x`/`detail_y` fields equal the raw
arguments (the container is constructed before the counts are floored), while
the generated ring structure uses the floored values; so for `detail_x < 3`
or `detail_y < 1` the stored fields disagree with the sanitized counts that
shaped the geometry. -/
theorem truncated_cone_stores_raw_details (b t h : ℝ) (dx dy : ℕ) (bc tc : Bool) :
    (truncated_cone b t h dx dy bc tc).detail_x = dx ∧
    (truncated_cone b t h dx dy bc tc).detail_y = dy ∧
    (truncated_cone b t h dx dy bc tc).vertices.length =
      (max dx 3) *
        ((max dy 1) + 1 + (if bc then 2 else 0) + (if tc then 2 else 0)) ∧
    (dx < 3 → (truncated_cone b t h dx dy bc tc).detail_x ≠ max dx 3) ∧
    (dy < 1 → (truncated_cone b t h dx dy bc tc).detail_y ≠ max dy 1) := by
  refine ⟨rfl, rfl, trunc_vertices_length b t h dx dy bc tc, ?_, ?_⟩
  · intro hlt
    show dx ≠ max dx 3
    omega
  · intro hlt
    show dy ≠ max dy 1
    omega

/-- Witness for `truncated_cone_stores_raw_details` at raw details
`detail_x = 2 < 3`, `detail_y = 0 < 1`. -/
theorem truncated_cone_stores_raw_details_witness :
    (truncated_cone 1 1 1 2 0 true true).detail_x = 2 ∧
    (truncated_cone 1 1 1 2 0 true true).detail_y = 0 ∧
    (truncated_cone 1 1 1 2 0 true true).vertices.length =
      (max 2 3) * ((max 0 1) + 1 + (if true then 2 else 0) + (if true then 2 else 0)) ∧
    (2 < 3 → (truncated_cone 1 1 1 2 0 true true).detail_x ≠ max 2 3) ∧
    (0 < 1 → (truncated_cone 1 1 1 2 0 true true).detail_y ≠ max 0 1) :=
  truncated_cone_stores_raw_details 1 1 1 2 0 true true

/-- C8: `sphere(radius, detail_x, detail_y)` returns exactly the mesh produced
by `ellipsoid(radius, radius, radius, detail_x, detail_y)`; in particular
`sphere` at its defaults `(50, 24, 16)` equals `ellipsoid(50, 50, 50, 24, 16)`. -/
theorem sphere_is_ellipsoid :
    (∀ (radius : ℝ) (detail_x detail_y : ℕ),
      sphere radius detail_x detail_y = ellipsoid radius radius radius detail_x detail_y) ∧
    sphere 50 24 16 = ellipsoid 50 50 50 24 16 :=
  ⟨fun _ _ _ => rfl, rfl⟩

/-- C7: for `detail_x ≥ 1` and `detail_y ≥ 1`, `ellipsoid` returns exactly
`(detail_x+1) * (detail_y+1)` vertices and equally many vertex normals, the
normals list equals the vertices list (each normal is its vertex position),
and the vertex at grid coordinates `(j, i)` (stored at index
`i * (detail_x+1) + j`) is `(cos phi * sin theta, sin phi, cos phi * cos theta)`
with `phi = pi * (i / detail_y) - pi / 2` and `theta = 2 * pi * (j / detail_x)`. -/
theorem ellipsoid_grid (rx ry rz : ℝ) (dx dy i j : ℕ)
    (hdx : 1 ≤ dx) (hdy : 1 ≤ dy) (hi : i ≤ dy) (hj : j ≤ dx) :
    (ellipsoid rx ry rz dx dy).vertices.length = (dx + 1) * (dy + 1) ∧
    (ellipsoid rx ry rz dx dy).vertex_normals.length = (dx + 1) * (dy + 1) ∧
    (ellipsoid rx ry rz dx dy).vertex_normals = (ellipsoid rx ry rz dx dy).vertices ∧
    (ellipsoid rx ry rz dx dy).vertices.getD (i * (dx + 1) + j) (0, 0, 0) =
      (Real.cos (Real.pi * ((i : ℝ) / (dy : ℝ)) - Real.pi / 2) *
          Real.sin (2 * Real.pi * ((j : ℝ) / (dx : ℝ))),
        Real.sin (Real.pi * ((i : ℝ) / (dy : ℝ)) - Real.pi / 2),
        Real.cos (Real.pi * ((i : ℝ) / (dy : ℝ)) - Real.pi / 2) *
          Real.cos (2 * Real.pi * ((j : ℝ) / (dx : ℝ)))) := by
  refine ⟨?_, ?_, rfl, ?_⟩
  · show ((List.range (dy + 1)).flatMap _).length = _
    rw [length_flatRows]; simp [Nat.mul_comm]
  · show ((List.range (dy + 1)).flatMap _).length = _
    rw [length_flatRows]; simp [Nat.mul_comm]
  · show ((List.range (dy + 1)).flatMap _).getD _ _ = _
    rw [getD_flatRows (List.range (dy + 1)) (dx + 1)
      (fun i j => ellipsoidVertex dx dy i j) (0, 0, 0) 0 i j
      (by simpa using Nat.lt_succ_of_le hi) (Nat.lt_succ_of_le hj)]
    rw [getD_range _ _ _ (Nat.lt_succ_of_le hi)]
    rfl

/-- Witness for `ellipsoid_grid` at `(rx, ry, rz) = (50, 50, 50)`,
`detail_x = 24`, `detail_y = 16`, grid position `(i, j) = (16, 24)`. -/
theorem ellipsoid_grid_witness :
    (1 ≤ 24 ∧ 1 ≤ 16 ∧ 16 ≤ 16 ∧ 24 ≤ 24) ∧
    ((ellipsoid 50 50 50 24 16).vertices.length = (24 + 1) * (16 + 1) ∧
      (ellipsoid 50 50 50 24 16).vertex_normals.length = (24 + 1) * (16 + 1) ∧
      (ellipsoid 50 50 50 24 16).vertex_normals = (ellipsoid 50 50 50 24 16).vertices ∧
      (ellipsoid 50 50 50 24 16).vertices.getD (16 * (24 + 1) + 24) (0, 0, 0) =
        (Real.cos (Real.pi * (((16 : ℕ) : ℝ) / ((16 : ℕ) : ℝ)) - Real.pi / 2) *
            Real.sin (2 * Real.pi * (((24 : ℕ) : ℝ) / ((24 : ℕ) : ℝ))),
          Real.sin (Real.pi * (((16 : ℕ) : ℝ) / ((16 : ℕ) : ℝ)) - Real.pi / 2),
          Real.cos (Real.pi * (((16 : ℕ) : ℝ) / ((16 : ℕ) : ℝ)) - Real.pi / 2) *
            Real.cos (2 * Real.pi * (((24 : ℕ) : ℝ) / ((24 : ℕ) : ℝ))))) :=
  ⟨⟨by norm_num, by norm_num, by norm_num, by norm_num⟩,
    ellipsoid_grid 50 50 50 24 16 16 24 (by norm_num) (by norm_num) (by norm_num)
      (by norm_num)⟩

set_option maxRecDepth 4000 in
/-- C1 counterexample: `torus` at its default parameters `(50, 10, 24, 16)`
violates the invariant: it has `(24+1)*(16+1) = 425` vertices but only
`16+1 = 17` UV pairs (34 flat UV entries) and 17 vertex normals (the source
appends the UV pair and the normal once per outer row, outside the inner
loop). -/
theorem torus_uv_normal_count_mismatch :
    (torus 50 10 24 16).vertices.length = 425 ∧
    (torus 50 10 24 16).uvs.length = 34 ∧
    (torus 50 10 24 16).vertex_normals.length = 17 ∧
    (torus 50 10 24 16).uvs.length ≠ 2 * (torus 50 10 24 16).vertices.length ∧
    ((torus 50 10 24 16).vertex_normals ≠ [] ∧
      (torus 50 10 24 16).vertex_normals.length ≠ (torus 50 10 24 16).vertices.length) := by
  refine ⟨rfl, rfl, rfl, ?_, ?_, ?_⟩
  · show (34 : ℕ) ≠ 2 * 425
    omega
  · show _ :: _ ≠ ([] : List Vec3)
    exact List.cons_ne_nil _ _
  · show (17 : ℕ) ≠ 425
    omega

/-- C1 (amended): the invariant `UV pairs = vertices` (the flat UV list has
twice the vertex count) and `normals, when populated, = vertices` holds for
`box`, `plane`, `sphere`, `ellipsoid`, `cylinder` and `cone`, but not for
`torus`: a torus has `(detail_x+1)*(detail_y+1)` vertices while its UV pairs
and its normals each number only `detail_y + 1`. -/
theorem uv_normal_counts (a b c : ℝ) (dx dy : ℕ) (bc tc cap : Bool)
    (hdx : 1 ≤ dx) (hdy : 1 ≤ dy) :
    ((box a b c dx dy).uvs.length = 2 * (box a b c dx dy).vertices.length ∧
      (box a b c dx dy).vertex_normals.length = (box a b c dx dy).vertices.length) ∧
    ((plane a b dx dy).uvs.length = 2 * (plane a b dx dy).vertices.length ∧
      (plane a b dx dy).vertex_normals.length = (plane a b dx dy).vertices.length) ∧
    ((ellipsoid a b c dx dy).uvs.length = 2 * (ellipsoid a b c dx dy).vertices.length ∧
      (ellipsoid a b c dx dy).vertex_normals.length =
        (ellipsoid a b c dx dy).vertices.length) ∧
    ((sphere a dx dy).uvs.length = 2 * (sphere a dx dy).vertices.length ∧
      (sphere a dx dy).vertex_normals.length = (sphere a dx dy).vertices.length) ∧
    ((cylinder a b dx dy tc bc).uvs.length =
        2 * (cylinder a b dx dy tc bc).vertices.length ∧
      (cylinder a b dx dy tc bc).vertex_normals.length =
        (cylinder a b dx dy tc bc).vertices.length) ∧
    ((cone a b dx dy cap).uvs.length = 2 * (cone a b dx dy cap).vertices.length ∧
      (cone a b dx dy cap).vertex_normals.length =
        (cone a b dx dy cap).vertices.length) ∧
    ((torus a b dx dy).vertices.length = (dx + 1) * (dy + 1) ∧
      (torus a b dx dy).uvs.length = 2 * (dy + 1) ∧
      (torus a b dx dy).vertex_normals.length = dy + 1) := by
  refine ⟨⟨rfl, rfl⟩, ⟨?_, ?_⟩, ⟨?_, ?_⟩, ⟨?_, ?_⟩,
    ⟨trunc_uvs_length 1 1 1 dx dy bc tc, trunc_normals_length 1 1 1 dx dy bc tc⟩,
    ⟨trunc_uvs_length 1 0 1 dx dy cap false, trunc_normals_length 1 0 1 dx dy cap false⟩,
    ?_, ?_, ?_⟩
  · show ((List.range (dy + 1)).flatMap _).length =
      2 * ((List.range (dy + 1)).flatMap _).length
    rw [length_flatRowPairs, length_flatRows]
    ring
  · show ((List.range ((((List.range (dy + 1)).flatMap _) : List Vec3).length)).map _).length =
      (((List.range (dy + 1)).flatMap _) : List Vec3).length
    rw [List.length_map, List.length_range]
  · show ((List.range (dy + 1)).flatMap _).length =
      2 * ((List.range (dy + 1)).flatMap _).length
    rw [length_flatRowPairs, length_flatRows]
    ring
  · show ((List.range (dy + 1)).flatMap _).length =
      ((List.range (dy + 1)).flatMap _).length
    rw [length_flatRows]
  · show ((List.range (dy + 1)).flatMap _).length =
      2 * ((List.range (dy + 1)).flatMap _).length
    rw [length_flatRowPairs, length_flatRows]
    ring
  · show ((List.range (dy + 1)).flatMap _).length =
      ((List.range (dy + 1)).flatMap _).length
    rw [length_flatRows]
  · show ((List.range (dy + 1)).flatMap _).length = (dx + 1) * (dy + 1)
    rw [length_flatRows, List.length_range]
    ring
  · show ((List.range (dy + 1)).flatMap _).length = 2 * (dy + 1)
    rw [length_flatPairs, List.length_range]
  · show ((List.range (dy + 1)).map _).length = dy + 1
    rw [List.length_map, List.length_range]

/-- Witness for `uv_normal_counts` at dimensions `(1, 2, 3)`, details
`(4, 5)`, all cap flags `true`. -/
theorem uv_normal_counts_witness :
    (1 ≤ 4 ∧ 1 ≤ 5) ∧
    (((box 1 2 3 4 5).uvs.length = 2 * (box 1 2 3 4 5).vertices.length ∧
      (box 1 2 3 4 5).vertex_normals.length = (box 1 2 3 4 5).vertices.length) ∧
    ((plane 1 2 4 5).uvs.length = 2 * (plane 1 2 4 5).vertices.length ∧
      (plane 1 2 4 5).vertex_normals.length = (plane 1 2 4 5).vertices.length) ∧
    ((ellipsoid 1 2 3 4 5).uvs.length = 2 * (ellipsoid 1 2 3 4 5).vertices.length ∧
      (ellipsoid 1 2 3 4 5).vertex_normals.length =
        (ellipsoid 1 2 3 4 5).vertices.length) ∧
    ((sphere 1 4 5).uvs.length = 2 * (sphere 1 4 5).vertices.length ∧
      (sphere 1 4 5).vertex_normals.length = (sphere 1 4 5).vertices.length) ∧
    ((cylinder 1 2 4 5 true true).uvs.length =
        2 * (cylinder 1 2 4 5 true true).vertices.length ∧
      (cylinder 1 2 4 5 true true).vertex_normals.length =
        (cylinder 1 2 4 5 true true).vertices.length) ∧
    ((cone 1 2 4 5 true).uvs.length = 2 * (cone 1 2 4 5 true).vertices.length ∧
      (cone 1 2 4 5 true).vertex_normals.length =
        (cone 1 2 4 5 true).vertices.length) ∧
    ((torus 1 2 4 5).vertices.length = (4 + 1) * (5 + 1) ∧
      (torus 1 2 4 5).uvs.length = 2 * (5 + 1) ∧
      (torus 1 2 4 5).vertex_normals.length = 5 + 1)) :=
  ⟨⟨by norm_num, by norm_num⟩,
    uv_normal_counts 1 2 3 4 5 true true true (by norm_num) (by norm_num)⟩

/-! Counting helpers used to analyse the truncated-cone face list. -/

theorem countP_flatMap {α β : Type} (l : List α) (f : α → List β) (p : β → Bool) :
    (l.flatMap f).countP p = (l.map (fun a => (f a).countP p)).sum := by
  induction l with
  | nil => simp
  | cons a t ih => simp [List.flatMap_cons, List.countP_append, ih]

theorem sum_map_const {α : Type} (l : List α) (c : ℕ) :
    (l.map (fun _ => c)).sum = l.length * c := by
  rw [List.map_const', List.sum_replicate, smul_eq_mul]

theorem sum_map_ite_single (m j c : ℕ) (hj : j < m) :
    ((List.range m).map (fun k => if k = j then c else 0)).sum = c := by
  induction m with
  | zero => omega
  | succ m ih =>
    rw [List.range_succ, List.map_append, List.sum_append]
    by_cases h : j = m
    · subst h
      have hz : (List.range j).map (fun k => if k = j then c else 0) =
          (List.range j).map (fun _ => 0) :=
        List.map_congr_left (fun k hk => if_neg (by
          rw [List.mem_range] at hk; omega))
      rw [hz, sum_map_const]
      simp
    · have hj' : j < m := by omega
      rw [ih hj']
      simp [Ne.symm h]

/-- The projection of a `truncated_cone` vertex fetch onto the generating
sample: the vertex at flat index `k * (max detail_x 3) + i` is the sample of
ring level `start + k` at angle index `i`. -/
theorem trunc_vertices_getD (b t h : ℝ) (dx dy : ℕ) (bc tc : Bool) (k i : ℕ)
    (hk : k < (truncLevels (max dy 1) bc tc).length) (hi : i < max dx 3) :
    (truncated_cone b t h dx dy bc tc).vertices.getD
        (k * (max dx 3) + i) (0, 0, 0) =
      truncVertex (if b ≤ 0 then 1 else b) (max t 0)
        (if h ≤ 0 then (if b ≤ 0 then 1 else b) else h) (max dx 3) (max dy 1)
        ((if bc then -2 else 0) + (k : ℤ)) i := by
  show ((truncLevels (max dy 1) bc tc).flatMap _).getD _ _ = _
  rw [getD_flatRows _ _ _ _ (0 : ℤ) k i hk hi, truncLevels_getD _ _ _ _ hk]

/-- Bridge: the vertices of `cone` are those of the underlying
`truncated_cone(1, 0, 1, detail_x, detail_y, cap, False)`. -/
theorem cone_vertices (r h : ℝ) (dx dy : ℕ) (cap : Bool) :
    (cone r h dx dy cap).vertices =
      (truncated_cone 1 0 1 dx dy cap false).vertices := rfl

/-- Bridge: the faces of `cone` are the truncated-cone faces with sanitized
subdivision counts, bottom cap `cap`, and no top cap. -/
theorem cone_faces (r h : ℝ) (dx dy : ℕ) (cap : Bool) :
    (cone r h dx dy cap).faces =
      truncFaces (max dx 3) (max dy 1) cap false := rfl

/-- The predicate "this face references a vertex of the ring block starting
at index `s`" (all generated indices lie below the next ring block). -/
def refsFrom (s : ℕ) (f : ℕ × ℕ × ℕ) : Bool :=
  decide (s ≤ f.1) || decide (s ≤ f.2.1) || decide (s ≤ f.2.2)

theorem countP_bottomFaces_topring (n m : ℕ) (hn : 1 ≤ n) :
    (bottomFaces n).countP (refsFrom ((m + 2) * n)) = 0 := by
  rw [bottomFaces, List.countP_map]
  refine List.countP_eq_zero.mpr (fun jj hjj => ?_)
  rw [List.mem_range] at hjj
  have hM : 2 * n ≤ (m + 2) * n := Nat.mul_le_mul_right n (by omega)
  have hmod : (jj + 1) % n < n := Nat.mod_lt _ (by omega)
  simp only [Function.comp, refsFrom, Bool.or_eq_true, decide_eq_true_eq, not_or,
    not_le]
  omega

theorem countP_bodyFaces_topring (n m : ℕ) (hn : 1 ≤ n) (hm : 1 ≤ m) :
    (bodyFaces (2 * n) n m).countP (refsFrom ((m + 2) * n)) = 2 * n := by
  obtain ⟨m', rfl⟩ : ∃ m', m = m' + 1 := ⟨m - 1, by omega⟩
  rw [bodyFaces, countP_flatMap]
  have hcongr : ∀ k ∈ List.range (m' + 1),
      ((List.range n).flatMap (fun ii =>
        [(2 * n + k * n + ii, 2 * n + k * n + (ii + 1) % n,
            2 * n + k * n + n + (ii + 1) % n),
          (2 * n + k * n + ii, 2 * n + k * n + n + (ii + 1) % n,
            2 * n + k * n + n + ii)])).countP (refsFrom ((m' + 1 + 2) * n)) =
      (fun k => if k = m' then 2 * n else 0) k := by
    intro k hk
    rw [List.mem_range] at hk
    rw [countP_flatMap]
    by_cases hkm : k = m'
    · subst hkm
      change _ = if k = k then 2 * n else 0
      rw [if_pos rfl]
      have heach : ∀ ii ∈ List.range n,
          ([(2 * n + k * n + ii, 2 * n + k * n + (ii + 1) % n,
              2 * n + k * n + n + (ii + 1) % n),
            (2 * n + k * n + ii, 2 * n + k * n + n + (ii + 1) % n,
              2 * n + k * n + n + ii)] :
            List (ℕ × ℕ × ℕ)).countP (refsFrom ((k + 1 + 2) * n)) =
          (fun _ : ℕ => 2) ii := by
        intro ii hii
        rw [List.mem_range] at hii
        have heq : (k + 1 + 2) * n = 2 * n + k * n + n := by ring
        have h1 : refsFrom ((k + 1 + 2) * n)
            (2 * n + k * n + ii, 2 * n + k * n + (ii + 1) % n,
              2 * n + k * n + n + (ii + 1) % n) = true := by
          simp only [refsFrom, Bool.or_eq_true, decide_eq_true_eq]
          omega
        have h2 : refsFrom ((k + 1 + 2) * n)
            (2 * n + k * n + ii, 2 * n + k * n + n + (ii + 1) % n,
              2 * n + k * n + n + ii) = true := by
          simp only [refsFrom, Bool.or_eq_true, decide_eq_true_eq]
          omega
        simp [List.countP_cons, h1, h2]
      rw [List.map_congr_left heach, sum_map_const, List.length_range]
      ring
    · change _ = if k = m' then 2 * n else 0
      rw [if_neg hkm]
      have heach : ∀ ii ∈ List.range n,
          ([(2 * n + k * n + ii, 2 * n + k * n + (ii + 1) % n,
              2 * n + k * n + n + (ii + 1) % n),
            (2 * n + k * n + ii, 2 * n + k * n + n + (ii + 1) % n,
              2 * n + k * n + n + ii)] :
            List (ℕ × ℕ × ℕ)).countP (refsFrom ((m' + 1 + 2) * n)) =
          (fun _ : ℕ => 0) ii := by
        intro ii hii
        rw [List.mem_range] at hii
        have hle : (k + 4) * n ≤ (m' + 1 + 2) * n :=
          Nat.mul_le_mul_right n (by omega)
        have heq : (k + 4) * n = 2 * n + k * n + n + n := by ring
        have hmod : (ii + 1) % n < n := Nat.mod_lt _ (by omega)
        have h1 : refsFrom ((m' + 1 + 2) * n)
            (2 * n + k * n + ii, 2 * n + k * n + (ii + 1) % n,
              2 * n + k * n + n + (ii + 1) % n) = false := by
          simp only [refsFrom, Bool.or_eq_false_iff, decide_eq_false_iff_not, not_le]
          omega
        have h2 : refsFrom ((m' + 1 + 2) * n)
            (2 * n + k * n + ii, 2 * n + k * n + n + (ii + 1) % n,
              2 * n + k * n + n + ii) = false := by
          simp only [refsFrom, Bool.or_eq_false_iff, decide_eq_false_iff_not, not_le]
          omega
        simp [List.countP_cons, h1, h2]
      rw [List.map_congr_left heach, sum_map_const]
      simp
  rw [List.map_congr_left hcongr, sum_map_ite_single (m' + 1) m' _ (by omega)]

theorem countP_truncFaces_topring (n m : ℕ) (hn : 1 ≤ n) (hm : 1 ≤ m) :
    (truncFaces n m true false).countP (refsFrom ((m + 2) * n)) = 2 * n := by
  rw [truncFaces_true_false, List.countP_append,
    countP_bottomFaces_topring n m hn, countP_bodyFaces_topring n m hn hm]
  omega

/-- C3 counterexample: for `cone(50, 50, 3, 1, cap=True)` the top ring is not
a single index-level point referenced by `detail_x = 3` triangles: the mesh
has 12 vertices (the top ring being the 3 indices 9, 10, 11), and 6 = 2*3
triangles (both triangles of every quad of the last body segment) reference
the top ring. -/
theorem cone_apex_counterexample :
    (cone 50 50 3 1 true).vertices.length = 12 ∧
    (cone 50 50 3 1 true).faces.countP (refsFrom 9) = 6 ∧
    (6 : ℕ) ≠ 3 := by
  refine ⟨rfl, ?_, by omega⟩
  show (truncFaces 3 1 true false).countP (refsFrom 9) = 6
  decide

/-- C3 (amended): for `detail_x ≥ 3` and `detail_y ≥ 1`,
`cone(..., cap=True)` generates no duplicated top-cap rim ring (the mesh has
exactly `detail_x * (detail_y + 3)` vertices: bottom apex ring, bottom rim
ring and `detail_y + 1` body rings); the top ring consists of `detail_x`
vertex indices that all carry the same apex position `(0, 1/2, 0)` in
canonical space; and `2 * detail_x` triangles (not `detail_x`) reference the
top ring. -/
theorem cone_apex (r h : ℝ) (dx dy i : ℕ) (hdx : 3 ≤ dx) (hdy : 1 ≤ dy)
    (hi : i < dx) :
    (cone r h dx dy true).vertices.length = dx * (dy + 3) ∧
    (cone r h dx dy true).vertices.getD ((dy + 2) * dx + i) (0, 0, 0) =
      (0, 1 / 2, 0) ∧
    (cone r h dx dy true).faces.countP (refsFrom ((dy + 2) * dx)) = 2 * dx := by
  have hmx : max dx 3 = dx := Nat.max_eq_left hdx
  have hmy : max dy 1 = dy := Nat.max_eq_left hdy
  refine ⟨?_, ?_, ?_⟩
  · rw [cone_vertices, trunc_vertices_length, hmx, hmy]
    norm_num
  · rw [cone_vertices]
    have hk : dy + 2 < (truncLevels (max dy 1) true false).length := by
      rw [truncLevels_length, hmy]
      norm_num
    have hgd := trunc_vertices_getD 1 0 1 dx dy true false (dy + 2) i hk
      (by rw [hmx]; exact hi)
    rw [hmx] at hgd
    rw [hgd]
    have e1 : (if (1 : ℝ) ≤ 0 then (1 : ℝ) else 1) = 1 := by norm_num
    have e2 : max (0 : ℝ) 0 = 0 := max_self 0
    have hyy : (if true then (-2 : ℤ) else 0) + ((dy + 2 : ℕ) : ℤ) = (dy : ℤ) := by
      simp
    rw [e1, e1, e2, hmy, hyy]
    have c1 : ¬((dy : ℤ) < 0) := by omega
    have c2 : ¬((dy : ℤ) > (dy : ℤ)) := by omega
    have c3 : ¬((dy : ℤ) = -2 ∨ (dy : ℤ) = (dy : ℤ) + 2) := by omega
    have hdne : ((dy : ℕ) : ℝ) ≠ 0 := Nat.cast_ne_zero.mpr (by omega)
    simp [truncVertex, truncRing, c1, c2, c3, div_self hdne]
    norm_num
  · rw [cone_faces, hmx, hmy, countP_truncFaces_topring dx dy (by omega) hdy]

/-- Witness for `cone_apex` at `radius = 1`, `height = 2`, `detail_x = 24`,
`detail_y = 2`, angle index `i = 5`. -/
theorem cone_apex_witness :
    (3 ≤ 24 ∧ 1 ≤ 2 ∧ 5 < 24) ∧
    ((cone 1 2 24 2 true).vertices.length = 24 * (2 + 3) ∧
      (cone 1 2 24 2 true).vertices.getD ((2 + 2) * 24 + 5) (0, 0, 0) =
        (0, 1 / 2, 0) ∧
      (cone 1 2 24 2 true).faces.countP (refsFrom ((2 + 2) * 24)) = 2 * 24) :=
  ⟨⟨by norm_num, by norm_num, by norm_num⟩,
    cone_apex 1 2 24 2 5 (by norm_num) (by norm_num) (by norm_num)⟩

/-! Machinery for the cylinder edge census: every vertex index generated by
`truncated_cone` decomposes uniquely as `ring * detail_x + offset` with
`offset < detail_x`. -/

theorem pt_inj {n r1 o1 r2 o2 : ℕ} (h1 : o1 < n) (h2 : o2 < n)
    (h : r1 * n + o1 = r2 * n + o2) : r1 = r2 ∧ o1 = o2 := by
  have hn : 0 < n := by omega
  have e1 : (r1 * n + o1) / n = r1 := by
    rw [Nat.mul_comm, Nat.mul_add_div hn, Nat.div_eq_of_lt h1, Nat.add_zero]
  have e2 : (r2 * n + o2) / n = r2 := by
    rw [Nat.mul_comm, Nat.mul_add_div hn, Nat.div_eq_of_lt h2, Nat.add_zero]
  have hr : r1 = r2 := by rw [← e1, ← e2, h]
  subst hr
  exact ⟨rfl, by omega⟩

theorem ring_det {n s o r : ℕ} (ho : o < n) (h1 : r * n ≤ s * n + o)
    (h2 : s * n + o < r * n + n) : s = r := by
  rcases lt_trichotomy s r with hlt | heq | hgt
  · have hmul : (s + 1) * n ≤ r * n := Nat.mul_le_mul_right n (by omega)
    have e : (s + 1) * n = s * n + n := by ring
    omega
  · exact heq
  · have hmul : (r + 1) * n ≤ s * n := Nat.mul_le_mul_right n (by omega)
    have e : (r + 1) * n = r * n + n := by ring
    omega

theorem eNorm_comm (a b : ℕ) : eNorm (a, b) = eNorm (b, a) := by
  unfold eNorm
  dsimp only
  split_ifs with h1 h2 h2
  · obtain rfl : a = b := by omega
    rfl
  · rfl
  · rfl
  · omega

theorem eNorm_eq_left {a b : ℕ} (h : a ≤ b) : eNorm (a, b) = (a, b) := if_pos h

theorem eNorm_fst_ge {a b c : ℕ} (ha : c ≤ a) (hb : c ≤ b) :
    c ≤ (eNorm (a, b)).1 := by
  unfold eNorm
  split_ifs <;> simpa

/-- The normalized horizontal edge of ring `r` between angle `i` and its
successor. -/
def ringE (n r i : ℕ) : ℕ × ℕ := eNorm (r * n + i, r * n + (i + 1) % n)

theorem ringE_cases (n r i : ℕ) (hi : i < n) :
    (i + 1 < n ∧ ringE n r i = (r * n + i, r * n + (i + 1))) ∨
    (i + 1 = n ∧ ringE n r i = (r * n, r * n + (n - 1))) := by
  by_cases h : i + 1 < n
  · left
    refine ⟨h, ?_⟩
    unfold ringE
    rw [Nat.mod_eq_of_lt h]
    exact eNorm_eq_left (by omega)
  · right
    have hi1 : i + 1 = n := by omega
    refine ⟨hi1, ?_⟩
    unfold ringE eNorm
    rw [hi1, Nat.mod_self]
    dsimp only
    split_ifs with hle
    · simp only [Prod.mk.injEq]
      omega
    · simp only [Prod.mk.injEq]
      omega

theorem ringE_comps (n r i : ℕ) (hi : i < n) :
    r * n ≤ (ringE n r i).1 ∧ (ringE n r i).1 < r * n + n ∧
    r * n ≤ (ringE n r i).2 ∧ (ringE n r i).2 < r * n + n := by
  rcases ringE_cases n r i hi with ⟨hlt, he⟩ | ⟨heq, he⟩ <;> rw [he] <;>
    constructor <;> simp <;> omega

/-! The six disjoint families making up the deduplicated edge set of
`truncFaces n m true true`: bottom-cap spokes to the next rim vertex (`A`),
bottom-cap spokes to the same rim vertex (`B`), ring horizontals for rings
`1..m+3` (`H`), body verticals (`V`), body diagonals (`D`), and top-cap
spokes onto the apex index (`S`). -/

def edgesA (n : ℕ) : Finset (ℕ × ℕ) :=
  (Finset.range n).image (fun j => (j, n + (j + 1) % n))

def edgesB (n : ℕ) : Finset (ℕ × ℕ) :=
  (Finset.range n).image (fun j => (j, n + j))

def edgesH (n m : ℕ) : Finset (ℕ × ℕ) :=
  ((Finset.Icc 1 (m + 3)) ×ˢ Finset.range n).image (fun p => ringE n p.1 p.2)

def edgesV (n m : ℕ) : Finset (ℕ × ℕ) :=
  ((Finset.Icc 2 (m + 1)) ×ˢ Finset.range n).image
    (fun p => (p.1 * n + p.2, (p.1 + 1) * n + p.2))

def edgesD (n m : ℕ) : Finset (ℕ × ℕ) :=
  ((Finset.Icc 2 (m + 1)) ×ˢ Finset.range n).image
    (fun p => (p.1 * n + p.2, (p.1 + 1) * n + (p.2 + 1) % n))

def edgesS (n m : ℕ) : Finset (ℕ × ℕ) :=
  (Finset.range n).image (fun i => ((m + 3) * n + i, (m + 4) * n))

/-- The full deduplicated edge set of the closed-cap truncated cone. -/
def cylinderEdges (n m : ℕ) : Finset (ℕ × ℕ) :=
  edgesA n ∪ edgesB n ∪ edgesH n m ∪ edgesV n m ∪ edgesD n m ∪ edgesS n m

theorem mem_edgesA {n : ℕ} {e : ℕ × ℕ} (he : e ∈ edgesA n) :
    ∃ j, j < n ∧ e = (j, n + (j + 1) % n) := by
  simp only [edgesA, Finset.mem_image, Finset.mem_range] at he
  obtain ⟨j, hj, he⟩ := he
  exact ⟨j, hj, he.symm⟩

theorem mem_edgesB {n : ℕ} {e : ℕ × ℕ} (he : e ∈ edgesB n) :
    ∃ j, j < n ∧ e = (j, n + j) := by
  simp only [edgesB, Finset.mem_image, Finset.mem_range] at he
  obtain ⟨j, hj, he⟩ := he
  exact ⟨j, hj, he.symm⟩

theorem mem_edgesH {n m : ℕ} {e : ℕ × ℕ} (he : e ∈ edgesH n m) :
    ∃ r i, 1 ≤ r ∧ r ≤ m + 3 ∧ i < n ∧ e = ringE n r i := by
  simp only [edgesH, Finset.mem_image, Finset.mem_product, Finset.mem_Icc,
    Finset.mem_range] at he
  obtain ⟨p, ⟨⟨h1, h2⟩, h3⟩, he⟩ := he
  exact ⟨p.1, p.2, h1, h2, h3, he.symm⟩

theorem mem_edgesV {n m : ℕ} {e : ℕ × ℕ} (he : e ∈ edgesV n m) :
    ∃ r i, 2 ≤ r ∧ r ≤ m + 1 ∧ i < n ∧ e = (r * n + i, (r + 1) * n + i) := by
  simp only [edgesV, Finset.mem_image, Finset.mem_product, Finset.mem_Icc,
    Finset.mem_range] at he
  obtain ⟨p, ⟨⟨h1, h2⟩, h3⟩, he⟩ := he
  exact ⟨p.1, p.2, h1, h2, h3, he.symm⟩

theorem mem_edgesD {n m : ℕ} {e : ℕ × ℕ} (he : e ∈ edgesD n m) :
    ∃ r i, 2 ≤ r ∧ r ≤ m + 1 ∧ i < n ∧
      e = (r * n + i, (r + 1) * n + (i + 1) % n) := by
  simp only [edgesD, Finset.mem_image, Finset.mem_product, Finset.mem_Icc,
    Finset.mem_range] at he
  obtain ⟨p, ⟨⟨h1, h2⟩, h3⟩, he⟩ := he
  exact ⟨p.1, p.2, h1, h2, h3, he.symm⟩

theorem mem_edgesS {n m : ℕ} {e : ℕ × ℕ} (he : e ∈ edgesS n m) :
    ∃ i, i < n ∧ e = ((m + 3) * n + i, (m + 4) * n) := by
  simp only [edgesS, Finset.mem_image, Finset.mem_range] at he
  obtain ⟨i, hi, he⟩ := he
  exact ⟨i, hi, he.symm⟩

theorem card_edgesA (n : ℕ) : (edgesA n).card = n := by
  rw [edgesA, Finset.card_image_of_injective _ (fun a b h => congrArg Prod.fst h),
    Finset.card_range]

theorem card_edgesB (n : ℕ) : (edgesB n).card = n := by
  rw [edgesB, Finset.card_image_of_injective _ (fun a b h => congrArg Prod.fst h),
    Finset.card_range]

theorem card_edgesH (n m : ℕ) (hn : 3 ≤ n) : (edgesH n m).card = (m + 3) * n := by
  have hinj : Set.InjOn (fun p : ℕ × ℕ => ringE n p.1 p.2)
      ↑((Finset.Icc 1 (m + 3)) ×ˢ Finset.range n) := by
    rintro ⟨p1, p2⟩ hp ⟨q1, q2⟩ hq he
    simp only [Finset.coe_product, Set.mem_prod, Finset.mem_coe, Finset.mem_Icc,
      Finset.mem_range] at hp hq
    obtain ⟨⟨hp1, hp2⟩, hp3⟩ := hp
    obtain ⟨⟨hq1, hq2⟩, hq3⟩ := hq
    simp only [] at he
    rcases ringE_cases n p1 p2 hp3 with ⟨ha, ea⟩ | ⟨ha, ea⟩ <;>
      rcases ringE_cases n q1 q2 hq3 with ⟨hb, eb⟩ | ⟨hb, eb⟩ <;>
      rw [ea, eb] at he <;>
      rw [Prod.mk.injEq] at he <;> obtain ⟨he1, he2⟩ := he
    · obtain ⟨hr, ho⟩ := pt_inj hp3 hq3 he1
      rw [hr, ho]
    · obtain ⟨hr, ho⟩ := pt_inj hp3 (show 0 < n by omega)
        (by simpa using he1)
      omega
    · obtain ⟨hr, ho⟩ := pt_inj (show 0 < n by omega) hq3
        (by simpa using he1)
      omega
    · obtain ⟨hr, ho⟩ := pt_inj (show 0 < n by omega) (show 0 < n by omega)
        (by simpa using he1)
      rw [Prod.mk.injEq]
      omega
  rw [edgesH, Finset.card_image_of_injOn hinj, Finset.card_product, Nat.card_Icc,
    Finset.card_range]
  all_goals congr 1
  all_goals omega

theorem card_edgesV (n m : ℕ) (hn : 1 ≤ n) : (edgesV n m).card = m * n := by
  have hinj : Set.InjOn (fun p : ℕ × ℕ => (p.1 * n + p.2, (p.1 + 1) * n + p.2))
      ↑((Finset.Icc 2 (m + 1)) ×ˢ Finset.range n) := by
    rintro ⟨p1, p2⟩ hp ⟨q1, q2⟩ hq he
    simp only [Finset.coe_product, Set.mem_prod, Finset.mem_coe, Finset.mem_Icc,
      Finset.mem_range] at hp hq
    simp only [] at he
    rw [Prod.mk.injEq] at he
    obtain ⟨hr, ho⟩ := pt_inj hp.2 hq.2 he.1
    rw [Prod.mk.injEq]
    exact ⟨hr, ho⟩
  rw [edgesV, Finset.card_image_of_injOn hinj, Finset.card_product, Nat.card_Icc,
    Finset.card_range]
  all_goals congr 1
  all_goals omega

theorem card_edgesD (n m : ℕ) (hn : 1 ≤ n) : (edgesD n m).card = m * n := by
  have hinj : Set.InjOn
      (fun p : ℕ × ℕ => (p.1 * n + p.2, (p.1 + 1) * n + (p.2 + 1) % n))
      ↑((Finset.Icc 2 (m + 1)) ×ˢ Finset.range n) := by
    rintro ⟨p1, p2⟩ hp ⟨q1, q2⟩ hq he
    simp only [Finset.coe_product, Set.mem_prod, Finset.mem_coe, Finset.mem_Icc,
      Finset.mem_range] at hp hq
    simp only [] at he
    rw [Prod.mk.injEq] at he
    obtain ⟨hr, ho⟩ := pt_inj hp.2 hq.2 he.1
    rw [Prod.mk.injEq]
    exact ⟨hr, ho⟩
  rw [edgesD, Finset.card_image_of_injOn hinj, Finset.card_product, Nat.card_Icc,
    Finset.card_range]
  all_goals congr 1
  all_goals omega

theorem card_edgesS (n m : ℕ) : (edgesS n m).card = n := by
  have hinj : Set.InjOn (fun i : ℕ => ((m + 3) * n + i, (m + 4) * n))
      ↑(Finset.range n) := by
    intro a ha b hb he
    simp only [] at he
    rw [Prod.mk.injEq] at he
    omega
  rw [edgesS, Finset.card_image_of_injOn hinj, Finset.card_range]

theorem fst_edgesA {n : ℕ} {e : ℕ × ℕ} (he : e ∈ edgesA n) : e.1 < n := by
  obtain ⟨j, hj, rfl⟩ := mem_edgesA he
  exact hj

theorem fst_edgesB {n : ℕ} {e : ℕ × ℕ} (he : e ∈ edgesB n) : e.1 < n := by
  obtain ⟨j, hj, rfl⟩ := mem_edgesB he
  exact hj

theorem fst_edgesH {n m : ℕ} {e : ℕ × ℕ} (he : e ∈ edgesH n m) : n ≤ e.1 := by
  obtain ⟨r, i, hr, _, hi, rfl⟩ := mem_edgesH he
  have h1 := (ringE_comps n r i hi).1
  have h2 : n ≤ r * n := by
    calc n = 1 * n := (Nat.one_mul n).symm
    _ ≤ r * n := Nat.mul_le_mul_right n hr
  omega

theorem fst_edgesV {n m : ℕ} {e : ℕ × ℕ} (he : e ∈ edgesV n m) : n ≤ e.1 := by
  obtain ⟨r, i, hr, _, hi, rfl⟩ := mem_edgesV he
  have h2 : n ≤ r * n := by
    calc n = 1 * n := (Nat.one_mul n).symm
    _ ≤ r * n := Nat.mul_le_mul_right n (by omega)
  simp only
  omega

theorem fst_edgesD {n m : ℕ} {e : ℕ × ℕ} (he : e ∈ edgesD n m) : n ≤ e.1 := by
  obtain ⟨r, i, hr, _, hi, rfl⟩ := mem_edgesD he
  have h2 : n ≤ r * n := by
    calc n = 1 * n := (Nat.one_mul n).symm
    _ ≤ r * n := Nat.mul_le_mul_right n (by omega)
  simp only
  omega

theorem fst_edgesS {n m : ℕ} {e : ℕ × ℕ} (he : e ∈ edgesS n m) : n ≤ e.1 := by
  obtain ⟨i, hi, rfl⟩ := mem_edgesS he
  have h2 : n ≤ (m + 3) * n := by
    calc n = 1 * n := (Nat.one_mul n).symm
    _ ≤ (m + 3) * n := Nat.mul_le_mul_right n (by omega)
  simp only
  omega

theorem disj_of_fst {n : ℕ} {s t : Finset (ℕ × ℕ)} (hs : ∀ e ∈ s, e.1 < n)
    (ht : ∀ e ∈ t, n ≤ e.1) : Disjoint s t := by
  rw [Finset.disjoint_left]
  intro e hes het
  have h1 := hs e hes
  have h2 := ht e het
  omega

theorem disj_AB (n : ℕ) (hn : 3 ≤ n) : Disjoint (edgesA n) (edgesB n) := by
  rw [Finset.disjoint_left]
  intro e heA heB
  obtain ⟨j, hj, rfl⟩ := mem_edgesA heA
  obtain ⟨j', hj', he⟩ := mem_edgesB heB
  rw [Prod.mk.injEq] at he
  obtain ⟨rfl, h2⟩ := he
  by_cases hj1 : j + 1 < n
  · rw [Nat.mod_eq_of_lt hj1] at h2
    omega
  · rw [show j + 1 = n from by omega, Nat.mod_self] at h2
    omega

theorem disj_HV (n m : ℕ) (hn : 1 ≤ n) : Disjoint (edgesH n m) (edgesV n m) := by
  rw [Finset.disjoint_left]
  intro e heH heV
  obtain ⟨r, i, hr1, hr2, hi, rfl⟩ := mem_edgesH heH
  obtain ⟨r', i', hr1', hr2', hi', he⟩ := mem_edgesV heV
  have hc := ringE_comps n r i hi
  rw [he] at hc
  simp only at hc
  have e1 : r' = r := ring_det hi' hc.1 hc.2.1
  have e2 : r' + 1 = r := ring_det hi' hc.2.2.1 hc.2.2.2
  omega

theorem disj_HD (n m : ℕ) (hn : 1 ≤ n) : Disjoint (edgesH n m) (edgesD n m) := by
  rw [Finset.disjoint_left]
  intro e heH heD
  obtain ⟨r, i, hr1, hr2, hi, rfl⟩ := mem_edgesH heH
  obtain ⟨r', i', hr1', hr2', hi', he⟩ := mem_edgesD heD
  have hmod : (i' + 1) % n < n := Nat.mod_lt _ (by omega)
  have hc := ringE_comps n r i hi
  rw [he] at hc
  simp only at hc
  have e1 : r' = r := ring_det hi' hc.1 hc.2.1
  have e2 : r' + 1 = r := ring_det hmod hc.2.2.1 hc.2.2.2
  omega

theorem disj_HS (n m : ℕ) (hn : 1 ≤ n) : Disjoint (edgesH n m) (edgesS n m) := by
  rw [Finset.disjoint_left]
  intro e heH heS
  obtain ⟨r, i, hr1, hr2, hi, rfl⟩ := mem_edgesH heH
  obtain ⟨i', hi', he⟩ := mem_edgesS heS
  have hc := ringE_comps n r i hi
  rw [he] at hc
  simp only at hc
  have e1 : m + 3 = r := ring_det hi' hc.1 hc.2.1
  have e2 : m + 4 = r :=
    ring_det (show 0 < n by omega) (show r * n ≤ (m + 4) * n + 0 by omega)
      (show (m + 4) * n + 0 < r * n + n by omega)
  omega

theorem disj_VD (n m : ℕ) (hn : 3 ≤ n) : Disjoint (edgesV n m) (edgesD n m) := by
  rw [Finset.disjoint_left]
  intro e heV heD
  obtain ⟨r, i, hr1, hr2, hi, rfl⟩ := mem_edgesV heV
  obtain ⟨r', i', hr1', hr2', hi', he⟩ := mem_edgesD heD
  rw [Prod.mk.injEq] at he
  obtain ⟨h1, h2⟩ := he
  obtain ⟨rfl, rfl⟩ := pt_inj hi hi' h1
  have hmod : (i + 1) % n < n := Nat.mod_lt _ (by omega)
  obtain ⟨-, h3⟩ := pt_inj hi hmod h2
  by_cases hi1 : i + 1 < n
  · rw [Nat.mod_eq_of_lt hi1] at h3
    omega
  · rw [show i + 1 = n from by omega, Nat.mod_self] at h3
    omega

theorem disj_VS (n m : ℕ) (hn : 1 ≤ n) : Disjoint (edgesV n m) (edgesS n m) := by
  rw [Finset.disjoint_left]
  intro e heV heS
  obtain ⟨r, i, hr1, hr2, hi, rfl⟩ := mem_edgesV heV
  obtain ⟨i', hi', he⟩ := mem_edgesS heS
  rw [Prod.mk.injEq] at he
  obtain ⟨rfl, -⟩ := pt_inj hi hi' he.1
  omega

theorem disj_DS (n m : ℕ) (hn : 1 ≤ n) : Disjoint (edgesD n m) (edgesS n m) := by
  rw [Finset.disjoint_left]
  intro e heD heS
  obtain ⟨r, i, hr1, hr2, hi, rfl⟩ := mem_edgesD heD
  obtain ⟨i', hi', he⟩ := mem_edgesS heS
  rw [Prod.mk.injEq] at he
  obtain ⟨rfl, -⟩ := pt_inj hi hi' he.1
  omega

theorem card_cylinderEdges (n m : ℕ) (hn : 3 ≤ n) (hm : 1 ≤ m) :
    (cylinderEdges n m).card = 3 * n * (m + 2) := by
  have dAH : Disjoint (edgesA n) (edgesH n m) :=
    disj_of_fst (fun e he => fst_edgesA he) (fun e he => fst_edgesH he)
  have dBH : Disjoint (edgesB n) (edgesH n m) :=
    disj_of_fst (fun e he => fst_edgesB he) (fun e he => fst_edgesH he)
  have dAV : Disjoint (edgesA n) (edgesV n m) :=
    disj_of_fst (fun e he => fst_edgesA he) (fun e he => fst_edgesV he)
  have dBV : Disjoint (edgesB n) (edgesV n m) :=
    disj_of_fst (fun e he => fst_edgesB he) (fun e he => fst_edgesV he)
  have dAD : Disjoint (edgesA n) (edgesD n m) :=
    disj_of_fst (fun e he => fst_edgesA he) (fun e he => fst_edgesD he)
  have dBD : Disjoint (edgesB n) (edgesD n m) :=
    disj_of_fst (fun e he => fst_edgesB he) (fun e he => fst_edgesD he)
  have dAS : Disjoint (edgesA n) (edgesS n m) :=
    disj_of_fst (fun e he => fst_edgesA he) (fun e he => fst_edgesS he)
  have dBS : Disjoint (edgesB n) (edgesS n m) :=
    disj_of_fst (fun e he => fst_edgesB he) (fun e he => fst_edgesS he)
  have d2 : Disjoint (edgesA n ∪ edgesB n) (edgesH n m) := by
    rw [Finset.disjoint_union_left]
    exact ⟨dAH, dBH⟩
  have d3 : Disjoint (edgesA n ∪ edgesB n ∪ edgesH n m) (edgesV n m) := by
    simp only [Finset.disjoint_union_left]
    exact ⟨⟨dAV, dBV⟩, disj_HV n m (by omega)⟩
  have d4 : Disjoint (edgesA n ∪ edgesB n ∪ edgesH n m ∪ edgesV n m)
      (edgesD n m) := by
    simp only [Finset.disjoint_union_left]
    exact ⟨⟨⟨dAD, dBD⟩, disj_HD n m (by omega)⟩, disj_VD n m hn⟩
  have d5 : Disjoint
      (edgesA n ∪ edgesB n ∪ edgesH n m ∪ edgesV n m ∪ edgesD n m)
      (edgesS n m) := by
    simp only [Finset.disjoint_union_left]
    exact ⟨⟨⟨⟨dAS, dBS⟩, disj_HS n m (by omega)⟩, disj_VS n m (by omega)⟩,
      disj_DS n m (by omega)⟩
  rw [cylinderEdges, Finset.card_union_of_disjoint d5,
    Finset.card_union_of_disjoint d4, Finset.card_union_of_disjoint d3,
    Finset.card_union_of_disjoint d2, Finset.card_union_of_disjoint (disj_AB n hn),
    card_edgesA, card_edgesB, card_edgesH n m hn, card_edgesV n m (by omega),
    card_edgesD n m (by omega), card_edgesS]
  ring

/-! Evaluation of the three normalized edges of each face class of the
closed-cap truncated cone, in ring-offset normal form. -/

theorem bottom_e1 (n jj : ℕ) (hn : 1 ≤ n) (hjj : jj < n) :
    eNorm (jj, n + (jj + 1) % n) = (jj, n + (jj + 1) % n) :=
  eNorm_eq_left (by omega)

theorem bottom_e2 (n jj : ℕ) :
    eNorm (n + (jj + 1) % n, n + jj) = ringE n 1 jj := by
  rw [eNorm_comm, ringE, Nat.one_mul]

theorem bottom_e3 (n jj : ℕ) :
    eNorm (n + jj, jj) = (jj, n + jj) := by
  rw [eNorm_comm, eNorm_eq_left (by omega)]

theorem f1_e1 (n k ii : ℕ) :
    eNorm (2 * n + k * n + ii, 2 * n + k * n + (ii + 1) % n) =
      ringE n (k + 2) ii := by
  have e : (2 * n + k * n + ii, 2 * n + k * n + (ii + 1) % n) =
      ((k + 2) * n + ii, (k + 2) * n + (ii + 1) % n) := by
    rw [Prod.mk.injEq]
    exact ⟨by ring, by ring⟩
  rw [e, ringE]

theorem f1_e2 (n k ii : ℕ) :
    eNorm (2 * n + k * n + (ii + 1) % n, 2 * n + k * n + n + (ii + 1) % n) =
      ((k + 2) * n + (ii + 1) % n, (k + 2 + 1) * n + (ii + 1) % n) := by
  rw [eNorm_eq_left (by omega), Prod.mk.injEq]
  exact ⟨by ring, by ring⟩

theorem f1_e3 (n k ii : ℕ) (hn : 1 ≤ n) (hii : ii < n) :
    eNorm (2 * n + k * n + n + (ii + 1) % n, 2 * n + k * n + ii) =
      ((k + 2) * n + ii, (k + 2 + 1) * n + (ii + 1) % n) := by
  rw [eNorm_comm, eNorm_eq_left (by omega), Prod.mk.injEq]
  exact ⟨by ring, by ring⟩

theorem f2_e1 (n k ii : ℕ) (hn : 1 ≤ n) (hii : ii < n) :
    eNorm (2 * n + k * n + ii, 2 * n + k * n + n + (ii + 1) % n) =
      ((k + 2) * n + ii, (k + 2 + 1) * n + (ii + 1) % n) := by
  rw [eNorm_eq_left (by omega), Prod.mk.injEq]
  exact ⟨by ring, by ring⟩

theorem f2_e2 (n k ii : ℕ) :
    eNorm (2 * n + k * n + n + (ii + 1) % n, 2 * n + k * n + n + ii) =
      ringE n (k + 3) ii := by
  rw [eNorm_comm]
  have e : (2 * n + k * n + n + ii, 2 * n + k * n + n + (ii + 1) % n) =
      ((k + 3) * n + ii, (k + 3) * n + (ii + 1) % n) := by
    rw [Prod.mk.injEq]
    exact ⟨by ring, by ring⟩
  rw [e, ringE]

theorem f2_e3 (n k ii : ℕ) :
    eNorm (2 * n + k * n + n + ii, 2 * n + k * n + ii) =
      ((k + 2) * n + ii, (k + 2 + 1) * n + ii) := by
  rw [eNorm_comm, eNorm_eq_left (by omega), Prod.mk.injEq]
  exact ⟨by ring, by ring⟩

theorem top_e1 (n m ii : ℕ) :
    eNorm (2 * n + m * n + n + ii, 2 * n + m * n + n + (ii + 1) % n) =
      ringE n (m + 3) ii := by
  have e : (2 * n + m * n + n + ii, 2 * n + m * n + n + (ii + 1) % n) =
      ((m + 3) * n + ii, (m + 3) * n + (ii + 1) % n) := by
    rw [Prod.mk.injEq]
    exact ⟨by ring, by ring⟩
  rw [e, ringE]

theorem top_e2 (n m ii : ℕ) (hn : 1 ≤ n) (hii : ii < n) :
    eNorm (2 * n + m * n + n + (ii + 1) % n, 2 * n + m * n + n + n) =
      ((m + 3) * n + (ii + 1) % n, (m + 4) * n) := by
  have hmod : (ii + 1) % n < n := Nat.mod_lt _ (by omega)
  rw [eNorm_eq_left (by omega), Prod.mk.injEq]
  exact ⟨by ring, by ring⟩

theorem top_e3 (n m ii : ℕ) (hn : 1 ≤ n) (hii : ii < n) :
    eNorm (2 * n + m * n + n + n, 2 * n + m * n + n + ii) =
      ((m + 3) * n + ii, (m + 4) * n) := by
  rw [eNorm_comm, eNorm_eq_left (by omega), Prod.mk.injEq]
  exact ⟨by ring, by ring⟩

/-! Family membership introductions. -/

theorem a_mem {n : ℕ} (j : ℕ) (hj : j < n) :
    (j, n + (j + 1) % n) ∈ edgesA n :=
  Finset.mem_image.mpr ⟨j, Finset.mem_range.mpr hj, rfl⟩

theorem b_mem {n : ℕ} (j : ℕ) (hj : j < n) : (j, n + j) ∈ edgesB n :=
  Finset.mem_image.mpr ⟨j, Finset.mem_range.mpr hj, rfl⟩

theorem h_mem {n m : ℕ} (r i : ℕ) (hr1 : 1 ≤ r) (hr2 : r ≤ m + 3) (hi : i < n) :
    ringE n r i ∈ edgesH n m :=
  Finset.mem_image.mpr ⟨(r, i),
    Finset.mem_product.mpr ⟨Finset.mem_Icc.mpr ⟨hr1, hr2⟩, Finset.mem_range.mpr hi⟩,
    rfl⟩

theorem v_mem {n m : ℕ} (r i : ℕ) (hr1 : 2 ≤ r) (hr2 : r ≤ m + 1) (hi : i < n) :
    (r * n + i, (r + 1) * n + i) ∈ edgesV n m :=
  Finset.mem_image.mpr ⟨(r, i),
    Finset.mem_product.mpr ⟨Finset.mem_Icc.mpr ⟨hr1, hr2⟩, Finset.mem_range.mpr hi⟩,
    rfl⟩

theorem d_mem {n m : ℕ} (r i : ℕ) (hr1 : 2 ≤ r) (hr2 : r ≤ m + 1) (hi : i < n) :
    (r * n + i, (r + 1) * n + (i + 1) % n) ∈ edgesD n m :=
  Finset.mem_image.mpr ⟨(r, i),
    Finset.mem_product.mpr ⟨Finset.mem_Icc.mpr ⟨hr1, hr2⟩, Finset.mem_range.mpr hi⟩,
    rfl⟩

theorem s_mem {n m : ℕ} (i : ℕ) (hi : i < n) :
    ((m + 3) * n + i, (m + 4) * n) ∈ edgesS n m :=
  Finset.mem_image.mpr ⟨i, Finset.mem_range.mpr hi, rfl⟩

theorem inA {n m : ℕ} {e : ℕ × ℕ} (h : e ∈ edgesA n) : e ∈ cylinderEdges n m := by
  simp only [cylinderEdges, Finset.mem_union]
  tauto

theorem inB {n m : ℕ} {e : ℕ × ℕ} (h : e ∈ edgesB n) : e ∈ cylinderEdges n m := by
  simp only [cylinderEdges, Finset.mem_union]
  tauto

theorem inH {n m : ℕ} {e : ℕ × ℕ} (h : e ∈ edgesH n m) : e ∈ cylinderEdges n m := by
  simp only [cylinderEdges, Finset.mem_union]
  tauto

theorem inV {n m : ℕ} {e : ℕ × ℕ} (h : e ∈ edgesV n m) : e ∈ cylinderEdges n m := by
  simp only [cylinderEdges, Finset.mem_union]
  tauto

theorem inD {n m : ℕ} {e : ℕ × ℕ} (h : e ∈ edgesD n m) : e ∈ cylinderEdges n m := by
  simp only [cylinderEdges, Finset.mem_union]
  tauto

theorem inS {n m : ℕ} {e : ℕ × ℕ} (h : e ∈ edgesS n m) : e ∈ cylinderEdges n m := by
  simp only [cylinderEdges, Finset.mem_union]
  tauto

/-! Membership introductions for the closed-cap truncated-cone face list. -/

theorem bottom_mem {n m jj : ℕ} (hj : jj < n) :
    (jj, n + (jj + 1) % n, n + jj) ∈ truncFaces n m true true := by
  rw [truncFaces_true_true]
  refine List.mem_append_left _ (List.mem_append_left _ ?_)
  rw [bottomFaces]
  exact List.mem_map.mpr ⟨jj, List.mem_range.mpr hj, rfl⟩

theorem f1_mem {n m k ii : ℕ} (hk : k < m) (hii : ii < n) :
    (2 * n + k * n + ii, 2 * n + k * n + (ii + 1) % n,
      2 * n + k * n + n + (ii + 1) % n) ∈ truncFaces n m true true := by
  rw [truncFaces_true_true]
  refine List.mem_append_left _ (List.mem_append_right _ ?_)
  rw [bodyFaces]
  refine List.mem_flatMap.mpr ⟨k, List.mem_range.mpr hk, ?_⟩
  refine List.mem_flatMap.mpr ⟨ii, List.mem_range.mpr hii, ?_⟩
  simp

theorem f2_mem {n m k ii : ℕ} (hk : k < m) (hii : ii < n) :
    (2 * n + k * n + ii, 2 * n + k * n + n + (ii + 1) % n,
      2 * n + k * n + n + ii) ∈ truncFaces n m true true := by
  rw [truncFaces_true_true]
  refine List.mem_append_left _ (List.mem_append_right _ ?_)
  rw [bodyFaces]
  refine List.mem_flatMap.mpr ⟨k, List.mem_range.mpr hk, ?_⟩
  refine List.mem_flatMap.mpr ⟨ii, List.mem_range.mpr hii, ?_⟩
  simp

theorem top_mem {n m ii : ℕ} (hii : ii < n) :
    (2 * n + m * n + n + ii, 2 * n + m * n + n + (ii + 1) % n,
      2 * n + m * n + n + n) ∈ truncFaces n m true true := by
  rw [truncFaces_true_true]
  refine List.mem_append_right _ ?_
  rw [topFaces]
  exact List.mem_map.mpr ⟨ii, List.mem_range.mpr hii, rfl⟩

theorem mem_edgeFinset {faces : List (ℕ × ℕ × ℕ)} {e : ℕ × ℕ} :
    e ∈ edgeFinset faces ↔ ∃ f ∈ faces, e ∈ edgesOfFace f := by
  simp [edgeFinset, List.mem_toFinset, List.mem_flatMap]

/-- The deduplicated edge set of the closed-cap truncated cone is exactly the
six-family census `cylinderEdges`. -/
theorem edgeFinset_truncFaces (n m : ℕ) (hn : 3 ≤ n) (hm : 1 ≤ m) :
    edgeFinset (truncFaces n m true true) = cylinderEdges n m := by
  apply Finset.ext
  intro e
  constructor
  · intro he
    rw [mem_edgeFinset] at he
    obtain ⟨f, hf, he⟩ := he
    rw [truncFaces_true_true] at hf
    rcases List.mem_append.mp hf with hf | hf
    · rcases List.mem_append.mp hf with hf | hf
      · rw [bottomFaces] at hf
        obtain ⟨jj, hjj, rfl⟩ := List.mem_map.mp hf
        rw [List.mem_range] at hjj
        simp only [edgesOfFace, List.mem_cons, List.not_mem_nil, or_false] at he
        rcases he with rfl | rfl | rfl
        · rw [bottom_e1 n jj (by omega) hjj]
          exact inA (a_mem jj hjj)
        · rw [bottom_e2]
          exact inH (h_mem 1 jj (by omega) (by omega) hjj)
        · rw [bottom_e3]
          exact inB (b_mem jj hjj)
      · rw [bodyFaces] at hf
        obtain ⟨k, hk, hf⟩ := List.mem_flatMap.mp hf
        rw [List.mem_range] at hk
        obtain ⟨ii, hii, hf⟩ := List.mem_flatMap.mp hf
        rw [List.mem_range] at hii
        simp only [List.mem_cons, List.not_mem_nil, or_false] at hf
        rcases hf with rfl | rfl
        · simp only [edgesOfFace, List.mem_cons, List.not_mem_nil, or_false] at he
          rcases he with rfl | rfl | rfl
          · rw [f1_e1]
            exact inH (h_mem (k + 2) ii (by omega) (by omega) hii)
          · rw [f1_e2]
            exact inV (v_mem (k + 2) ((ii + 1) % n) (by omega) (by omega)
              (Nat.mod_lt _ (by omega)))
          · rw [f1_e3 n k ii (by omega) hii]
            exact inD (d_mem (k + 2) ii (by omega) (by omega) hii)
        · simp only [edgesOfFace, List.mem_cons, List.not_mem_nil, or_false] at he
          rcases he with rfl | rfl | rfl
          · rw [f2_e1 n k ii (by omega) hii]
            exact inD (d_mem (k + 2) ii (by omega) (by omega) hii)
          · rw [f2_e2]
            exact inH (h_mem (k + 3) ii (by omega) (by omega) hii)
          · rw [f2_e3]
            exact inV (v_mem (k + 2) ii (by omega) (by omega) hii)
    · rw [topFaces] at hf
      obtain ⟨ii, hii, rfl⟩ := List.mem_map.mp hf
      rw [List.mem_range] at hii
      simp only [edgesOfFace, List.mem_cons, List.not_mem_nil, or_false] at he
      rcases he with rfl | rfl | rfl
      · rw [top_e1]
        exact inH (h_mem (m + 3) ii (by omega) (by omega) hii)
      · rw [top_e2 n m ii (by omega) hii]
        exact inS (s_mem ((ii + 1) % n) (Nat.mod_lt _ (by omega)))
      · rw [top_e3 n m ii (by omega) hii]
        exact inS (s_mem ii hii)
  · intro he
    simp only [cylinderEdges, Finset.mem_union] at he
    rw [mem_edgeFinset]
    rcases he with ((((hA | hB) | hH) | hV) | hD) | hS
    · obtain ⟨j, hj, rfl⟩ := mem_edgesA hA
      refine ⟨_, bottom_mem (m := m) hj, ?_⟩
      simp only [edgesOfFace, List.mem_cons]
      exact Or.inl (bottom_e1 n j (by omega) hj).symm
    · obtain ⟨j, hj, rfl⟩ := mem_edgesB hB
      refine ⟨_, bottom_mem (m := m) hj, ?_⟩
      simp only [edgesOfFace, List.mem_cons]
      exact Or.inr (Or.inr (Or.inl (bottom_e3 n j).symm))
    · obtain ⟨r, i, hr1, hr2, hi, rfl⟩ := mem_edgesH hH
      by_cases h1 : r = 1
      · subst h1
        refine ⟨_, bottom_mem (m := m) hi, ?_⟩
        simp only [edgesOfFace, List.mem_cons]
        exact Or.inr (Or.inl (bottom_e2 n i).symm)
      · by_cases h2 : r ≤ m + 1
        · obtain ⟨k, rfl⟩ : ∃ k, r = k + 2 := ⟨r - 2, by omega⟩
          refine ⟨_, f1_mem (show k < m by omega) hi, ?_⟩
          simp only [edgesOfFace, List.mem_cons]
          exact Or.inl (f1_e1 n k i).symm
        · by_cases h3 : r = m + 2
          · obtain ⟨k, rfl⟩ : ∃ k, m = k + 1 := ⟨m - 1, by omega⟩
            subst h3
            refine ⟨_, f2_mem (show k < k + 1 by omega) hi, ?_⟩
            simp only [edgesOfFace, List.mem_cons]
            refine Or.inr (Or.inl ?_)
            rw [f2_e2]
          · have h4 : r = m + 3 := by omega
            subst h4
            refine ⟨_, top_mem hi, ?_⟩
            simp only [edgesOfFace, List.mem_cons]
            exact Or.inl (top_e1 n m i).symm
    · obtain ⟨r, i, hr1, hr2, hi, rfl⟩ := mem_edgesV hV
      obtain ⟨k, rfl⟩ : ∃ k, r = k + 2 := ⟨r - 2, by omega⟩
      refine ⟨_, f2_mem (show k < m by omega) hi, ?_⟩
      simp only [edgesOfFace, List.mem_cons]
      exact Or.inr (Or.inr (Or.inl (f2_e3 n k i).symm))
    · obtain ⟨r, i, hr1, hr2, hi, rfl⟩ := mem_edgesD hD
      obtain ⟨k, rfl⟩ : ∃ k, r = k + 2 := ⟨r - 2, by omega⟩
      refine ⟨_, f1_mem (show k < m by omega) hi, ?_⟩
      simp only [edgesOfFace, List.mem_cons]
      exact Or.inr (Or.inr (Or.inl (f1_e3 n k i (by omega) hi).symm))
    · obtain ⟨i, hi, rfl⟩ := mem_edgesS hS
      refine ⟨_, top_mem hi, ?_⟩
      simp only [edgesOfFace, List.mem_cons]
      exact Or.inr (Or.inr (Or.inl (top_e3 n m i (by omega) hi).symm))

theorem truncFaces_length (n m : ℕ) :
    (truncFaces n m true true).length = 2 * n * (m + 1) := by
  rw [truncFaces_true_true, bottomFaces, topFaces, bodyFaces]
  simp only [List.length_append, List.length_map, List.length_range,
    length_flatRowPairs]
  ring

theorem countP_eq_sum {α : Type} (l : List α) (p : α → Bool) :
    l.countP p = (l.map (fun a => if p a then 1 else 0)).sum := by
  induction l with
  | nil => simp
  | cons a t ih => rw [List.countP_cons, List.map_cons, List.sum_cons, ih]; omega

theorem no_rim_edge {a b n : ℕ} (ha : 2 * n ≤ a) (hb : 2 * n ≤ b) (hn : 1 ≤ n) :
    ((n, n + 1) : ℕ × ℕ) ≠ eNorm (a, b) := by
  intro h
  have h1 := congrArg Prod.fst h
  have h2 := eNorm_fst_ge ha hb
  simp only at h1
  omega

/-- The bottom rim edge `(n, n+1)` belongs to exactly one triangle of the
closed-cap truncated-cone face list: the cap rim rings are duplicated from
the adjacent body rings, so cap rim edges are boundary edges at the index
level. -/
theorem rim_edge_count (n m : ℕ) (hn : 3 ≤ n) :
    (truncFaces n m true true).countP
      (fun f => decide ((n, n + 1) ∈ edgesOfFace f)) = 1 := by
  rw [truncFaces_true_true, List.countP_append, List.countP_append]
  have hbot : (bottomFaces n).countP
      (fun f => decide ((n, n + 1) ∈ edgesOfFace f)) = 1 := by
    rw [bottomFaces, List.countP_map, countP_eq_sum]
    have hcongr : ∀ jj ∈ List.range n,
        (if ((fun f => decide ((n, n + 1) ∈ edgesOfFace f)) ∘
            (fun jj => (jj, n + (jj + 1) % n, n + jj))) jj then 1 else 0) =
          (fun jj => if jj = 0 then 1 else 0) jj := by
      intro jj hjj
      rw [List.mem_range] at hjj
      have hiff : ((n, n + 1) ∈
          edgesOfFace (jj, n + (jj + 1) % n, n + jj)) ↔ jj = 0 := by
        constructor
        · intro hmem
          simp only [edgesOfFace, List.mem_cons, List.not_mem_nil, or_false] at hmem
          rcases hmem with hmem | hmem | hmem
          · rw [bottom_e1 n jj (by omega) hjj, Prod.mk.injEq] at hmem
            omega
          · rw [bottom_e2] at hmem
            rcases ringE_cases n 1 jj hjj with ⟨hlt, he⟩ | ⟨heq, he⟩ <;>
              rw [he, Prod.mk.injEq] at hmem <;> omega
          · rw [bottom_e3, Prod.mk.injEq] at hmem
            omega
        · intro hjj0
          subst hjj0
          simp only [edgesOfFace, List.mem_cons, List.not_mem_nil, or_false]
          refine Or.inr (Or.inl ?_)
          rw [bottom_e2]
          rcases ringE_cases n 1 0 (by omega) with ⟨hlt, he⟩ | ⟨heq, he⟩
          · rw [he, Prod.mk.injEq]
            omega
          · omega
      simp only [Function.comp, decide_eq_true_eq, hiff]
    rw [List.map_congr_left hcongr, sum_map_ite_single n 0 1 (by omega)]
  have hbody : (bodyFaces (2 * n) n m).countP
      (fun f => decide ((n, n + 1) ∈ edgesOfFace f)) = 0 := by
    refine List.countP_eq_zero.mpr (fun f hf => ?_)
    rw [bodyFaces] at hf
    obtain ⟨k, hk, hf⟩ := List.mem_flatMap.mp hf
    obtain ⟨ii, hii, hf⟩ := List.mem_flatMap.mp hf
    simp only [List.mem_cons, List.not_mem_nil, or_false] at hf
    simp only [decide_eq_true_eq]
    intro hmem
    rcases hf with rfl | rfl <;>
      simp only [edgesOfFace, List.mem_cons, List.not_mem_nil, or_false] at hmem <;>
      rcases hmem with hmem | hmem | hmem <;>
      exact no_rim_edge (by omega) (by omega) (by omega) hmem
  have htop : (topFaces (2 * n + m * n + n) n).countP
      (fun f => decide ((n, n + 1) ∈ edgesOfFace f)) = 0 := by
    refine List.countP_eq_zero.mpr (fun f hf => ?_)
    rw [topFaces] at hf
    obtain ⟨ii, hii, rfl⟩ := List.mem_map.mp hf
    simp only [decide_eq_true_eq]
    intro hmem
    simp only [edgesOfFace, List.mem_cons, List.not_mem_nil, or_false] at hmem
    rcases hmem with hmem | hmem | hmem <;>
      exact no_rim_edge (by omega) (by omega) (by omega) hmem
  omega

/-- Bridge: the faces of `cylinder` are the truncated-cone faces with
sanitized subdivision counts and both caps as requested. -/
theorem cylinder_faces (r h : ℝ) (dx dy : ℕ) (tc bc : Bool) :
    (cylinder r h dx dy tc bc).faces =
      truncFaces (max dx 3) (max dy 1) bc tc := rfl

theorem rim_edge_eq_ringE (n : ℕ) (hn : 3 ≤ n) :
    ((n, n + 1) : ℕ × ℕ) = ringE n 1 0 := by
  rcases ringE_cases n 1 0 (by omega) with ⟨hlt, he⟩ | ⟨heq, he⟩
  · rw [he, Prod.mk.injEq]
    omega
  · omega

/-- C2 counterexample: `cylinder(50, 50, 3, 1, top_cap=True,
bottom_cap=True)` has 18 vertices, 27 deduplicated edges and 12 faces, so
`V - E + F = 3 ≠ 2`; moreover the deduplicated edge `(3, 4)` (a bottom rim
edge) lies in exactly one triangle, so not every edge is shared by two. -/
theorem cylinder_euler_counterexample :
    (cylinder 50 50 3 1 true true).vertices.length = 18 ∧
    (edgeFinset (cylinder 50 50 3 1 true true).faces).card = 27 ∧
    (cylinder 50 50 3 1 true true).faces.length = 12 ∧
    ((3, 4) : ℕ × ℕ) ∈ edgeFinset (cylinder 50 50 3 1 true true).faces ∧
    (cylinder 50 50 3 1 true true).faces.countP
      (fun f => decide (((3, 4) : ℕ × ℕ) ∈ edgesOfFace f)) = 1 ∧
    ((18 : ℤ) - 27 + 12 ≠ 2) := by
  refine ⟨rfl, ?_, rfl, ?_, ?_, by decide⟩
  · show (edgeFinset (truncFaces 3 1 true true)).card = 27
    decide
  · show ((3, 4) : ℕ × ℕ) ∈ edgeFinset (truncFaces 3 1 true true)
    decide
  · show (truncFaces 3 1 true true).countP _ = 1
    decide

/-- C2 (amended): for `detail_x ≥ 3` and `detail_y ≥ 1` the closed-cap
cylinder is not a closed manifold at the index level: the bottom rim edge
`(detail_x, detail_x + 1)` is a deduplicated edge shared by exactly one
triangle (the cap rim rings duplicate the adjacent body rings), and the
Euler count is `V - E + F = detail_x`, not 2, where `V` is the vertex count,
`E` the deduplicated edge count and `F` the triangle count. -/
theorem cylinder_euler (r h : ℝ) (dx dy : ℕ) (hdx : 3 ≤ dx) (hdy : 1 ≤ dy) :
    (dx, dx + 1) ∈ edgeFinset (cylinder r h dx dy true true).faces ∧
    (cylinder r h dx dy true true).faces.countP
      (fun f => decide ((dx, dx + 1) ∈ edgesOfFace f)) = 1 ∧
    ((cylinder r h dx dy true true).vertices.length : ℤ) -
      ((edgeFinset (cylinder r h dx dy true true).faces).card : ℤ) +
      ((cylinder r h dx dy true true).faces.length : ℤ) = (dx : ℤ) := by
  have hmx : max dx 3 = dx := Nat.max_eq_left hdx
  have hmy : max dy 1 = dy := Nat.max_eq_left hdy
  have hfaces : (cylinder r h dx dy true true).faces =
      truncFaces dx dy true true := by
    rw [cylinder_faces, hmx, hmy]
  refine ⟨?_, ?_, ?_⟩
  · rw [hfaces, edgeFinset_truncFaces dx dy hdx hdy, rim_edge_eq_ringE dx hdx]
    exact inH (h_mem 1 0 (by omega) (by omega) (by omega))
  · rw [hfaces]
    exact rim_edge_count dx dy hdx
  · have hV : (cylinder r h dx dy true true).vertices.length = dx * (dy + 5) := by
      calc (cylinder r h dx dy true true).vertices.length
          = (truncated_cone 1 1 1 dx dy true true).vertices.length := rfl
        _ = (max dx 3) * ((max dy 1) + 1 + (if true then 2 else 0) +
              (if true then 2 else 0)) := trunc_vertices_length 1 1 1 dx dy true true
        _ = dx * (dy + 5) := by rw [hmx, hmy]; norm_num
    rw [hfaces, edgeFinset_truncFaces dx dy hdx hdy,
      card_cylinderEdges dx dy hdx hdy, truncFaces_length, hV]
    push_cast
    ring

/-- Witness for `cylinder_euler` at `radius = height = 50`, `detail_x = 4`,
`detail_y = 2`. -/
theorem cylinder_euler_witness :
    (3 ≤ 4 ∧ 1 ≤ 2) ∧
    ((4, 4 + 1) ∈ edgeFinset (cylinder 50 50 4 2 true true).faces ∧
      (cylinder 50 50 4 2 true true).faces.countP
        (fun f => decide ((4, 4 + 1) ∈ edgesOfFace f)) = 1 ∧
      ((cylinder 50 50 4 2 true true).vertices.length : ℤ) -
        ((edgeFinset (cylinder 50 50 4 2 true true).faces).card : ℤ) +
        ((cylinder 50 50 4 2 true true).faces.length : ℤ) = ((4 : ℕ) : ℤ)) :=
  ⟨⟨by norm_num, by norm_num⟩,
    cylinder_euler 50 50 4 2 (by norm_num) (by norm_num)⟩

end P5
